import Mathlib

set_option maxHeartbeats 1000000
set_option maxRecDepth 16384

/-!
Shallow embedding of the combinatorial enumeration core of
`src/enumeratePolycubes.py` (polycube enumeration, symmetry-group
isomorphism tests, spanning-tree brute force), together with theorems
settling the specification claims about it.

Modelling conventions:
* Python integers are `Nat`/`Int`; `scipy.special.binom` on integer
  arguments is modelled exactly (`binom`), as is the real-valued
  `np.log10` digit-count computation in `convert_to_decimal`
  (exact base logarithm via `Nat.log`).
* Cube coordinates are `Int` triples (`Coord`).
* `networkx` graph facts are modelled on the adjacency matrix the source
  builds: connected components via an iterated reachability closure
  (`countComponents`), the tree test via edge count plus connectivity
  (`checkTree`), exactly as `nx.is_tree` computes it.
* A Python crash is modelled by `Option`: `check_all_isomorphism` /
  `check_poly_isomorphism` raise `IndexError` when the second argument is
  the empty list (`reflectPoints[i]` on an empty list), hence return
  `none` there, and `taxi_distance` raises `AssertionError` on length
  mismatch, hence returns `none` there.
-/

/-- Binomial coefficient; models `scipy.special.binom` on integer arguments
with exact arithmetic (the source casts the float result with `int(...)`). -/
def binom (n k : Nat) : Nat := n.descFactorial k / k.factorial

/-- Model of the inner `while c > r: x -= 1` descent of `unrank_kSubset`:
starting from `x`, decrement while `binom x j > r`.  For `j ≥ 1` the Python
loop always stops at or before `x = 0` because `binom 0 j = 0 ≤ r`. -/
def findX (r j : Nat) : Nat → Nat
  | 0 => 0
  | x + 1 => if r < binom (x + 1) j then findX r j x else x + 1

/-- Model of the main loop of `unrank_kSubset`: position `i` of the source
corresponds to countdown value `j = k + 1 - i`; the running bound `x` and the
remaining rank `r` are threaded exactly as in the source. -/
def unrankAux : Nat → Nat → Nat → List Nat
  | _, _, 0 => []
  | r, x, j + 1 =>
    let t := findX r (j + 1) x
    t :: unrankAux (r - binom t (j + 1)) t j

/-- Model of `unrank_kSubset(r, k, n)` from `src/enumeratePolycubes.py`. -/
def unrank_kSubset (r k n : Nat) : List Nat := unrankAux r n k

/-- Rank of a strictly decreasing list in the combinatorial number system:
the inverse of `unrank_kSubset` (used to state and prove its bijectivity). -/
def rankOf : List Nat → Nat
  | [] => 0
  | x :: xs => binom x (xs.length + 1) + rankOf xs

/-- Cube coordinates: ordered integer triples. -/
abbrev Coord : Type := Int × Int × Int

/-- Case split over `Fin 3`, used to read tuples positionally the way the
Python source indexes `coord[i]`. -/
def fin3 {α : Type} (a b c : α) : Fin 3 → α
  | ⟨0, _⟩ => a
  | ⟨1, _⟩ => b
  | ⟨2, _⟩ => c

/-- Positional access `coord[i]` on a coordinate triple. -/
def getAxis (c : Coord) : Fin 3 → Int := fin3 c.1 c.2.1 c.2.2

/-- A coordinate triple as the list Python's `zip`/iteration sees. -/
def coordToList (c : Coord) : List Int := [c.1, c.2.1, c.2.2]

/-- Python `max` over a list of integers (the empty list raises in Python;
callers below guard for that, the `0` default is never relied upon). -/
def listMax : List Int → Int
  | [] => 0
  | x :: xs => xs.foldl max x

/-- Python `min` over a list of integers (same convention as `listMax`). -/
def listMin : List Int → Int
  | [] => 0
  | x :: xs => xs.foldl min x

/-- Number of base-`b` digits of `num` (so 1 for `num = 0`), computed with a
structural fuel argument so that it evaluates inside the kernel; the first
argument of the recursion is fuel and never runs out for fuel ≥ num. -/
def digitsLenAux (b : Nat) : Nat → Nat → Nat
  | 0, _ => 1
  | fuel + 1, num => if num < b then 1 else digitsLenAux b fuel (num / b) + 1

/-- Model of `convert_to_decimal(b, num)`: the base-`b` digits of `num`,
most significant first.  The source computes the digit count as
`ceil(log10(num+1)/log10(b))` in floating point and then peels digits with
floor division; with the real-valued logarithm computed exactly the digit
count is the number of base-`b` digits and digit `i` (from the least
significant) is `num / b^i % b`. -/
def convert_to_decimal (b num : Nat) : List Nat :=
  (List.range (digitsLenAux b num num)).reverse.map (fun i => num / b ^ i % b)

/-- Python `str.zfill(3)`: left-pad the digit list with zeros to length 3. -/
def zfill3 (l : List Nat) : List Nat := List.replicate (3 - l.length) 0 ++ l

/-- The source turns a 3-character digit string into a coordinate tuple; a
list of another length never occurs for indices below `125`. -/
def toCoord : List Nat → Coord
  | [a, b, c] => ((a : Int), (b : Int), (c : Int))
  | _ => (0, 0, 0)

/-- Decoding of one subset index into a lattice coordinate, as done inside
`get_polycubes_of_size`: base-5 digits, zero-filled to 3, read as (x,y,z). -/
def decodeCoord (num : Nat) : Coord := toCoord (zfill3 (convert_to_decimal 5 num))

/-- Model of `taxi_distance(v1, v2)`: `none` models the fatal
`AssertionError` when the dimensions differ, otherwise the sum of the
absolute coordinate differences. -/
def taxi_distance (v1 v2 : List Int) : Option Int :=
  if v1.length = v2.length then
    some ((v1.zip v2).foldl (fun d p => d + |p.1 - p.2|) 0)
  else none

/-- Model of `polycube_to_graph(p)`: the N×N adjacency matrix with a `1`
exactly where the taxicab distance of the two cubes equals 1. -/
def polycube_to_graph (p : List Coord) : List (List Bool) :=
  p.map (fun ci => p.map (fun cj =>
    decide (taxi_distance (coordToList ci) (coordToList cj) = some 1)))

/-- Entry lookup in an adjacency matrix. -/
def adjOf (A : List (List Bool)) (i j : Nat) : Bool := (A.getD i []).getD j false

/-- Root of `i` in a union-find parent list (`fuel` bounds the chain walk;
every caller passes the node count, which always suffices because parent
chains only ever link distinct roots). -/
def ufFind (parent : List Nat) : Nat → Nat → Nat
  | 0, i => i
  | fuel + 1, i => if parent.getD i i = i then i else ufFind parent fuel (parent.getD i i)

/-- Union of the classes of the two endpoints of an edge: link the root of
the second endpoint beneath the root of the first (a no-op on one class). -/
def ufUnion (parent : List Nat) (e : Nat × Nat) : List Nat :=
  if ufFind parent parent.length e.2 = ufFind parent parent.length e.1 then parent
  else parent.set (ufFind parent parent.length e.2) (ufFind parent parent.length e.1)

/-- All index pairs (i, j) whose adjacency-matrix entry is set. -/
def matrixEdges (A : List (List Bool)) : List (Nat × Nat) :=
  (A.enum.map (fun p => p.2.enum.filterMap
    (fun q => if q.2 then some (p.1, q.1) else none))).join

/-- Number of connected components of the graph of an adjacency matrix:
union-find over all set entries, then count the remaining roots (each union
of two distinct classes removes exactly one root, so roots and components
coincide).  Models `nx.number_connected_components(nx.from_numpy_matrix(A))`. -/
def countComponents (A : List (List Bool)) : Nat :=
  ((List.range A.length).filter
    (fun i => ((matrixEdges A).foldl ufUnion (List.range A.length)).getD i i = i)).length

/-- Model of `num_regions(p)`: connected components of the face-adjacency
graph of the cube coordinates. -/
def num_regions (p : List Coord) : Nat := countComponents (polycube_to_graph p)

/-- Number of undirected edges of an adjacency matrix (each unordered pair
counted once, as `networkx` counts edges of the graph of the matrix). -/
def countUndirected (A : List (List Bool)) : Nat :=
  ((List.range A.length).map
    (fun i => ((List.range A.length).filter (fun j => decide (i ≤ j) && adjOf A i j)).length)).sum

/-- Adjacency matrix built from an edge list on `n` nodes, as
`nx.from_numpy_matrix` sees the matrix `checkTree` builds: entry (i,j) is
set when some listed edge is (i,j) in either orientation. -/
def adjFromEdges (edges : List (Nat × Nat)) (n : Nat) : List (List Bool) :=
  (List.range n).map (fun i => (List.range n).map (fun j =>
    edges.any (fun e => (e.1 == i && e.2 == j) || (e.1 == j && e.2 == i))))

/-- Model of `checkTree(edgeList, n)`: `nx.is_tree` on the graph of the
matrix, i.e. the edge count is `n - 1` and the graph is connected. -/
def checkTree (edgeList : List (Nat × Nat)) (n : Nat) : Bool :=
  countUndirected (adjFromEdges edgeList n) == n - 1 &&
    countComponents (adjFromEdges edgeList n) == 1

/-- Model of `brute_force_trees(n, E)`.  The loop index set and the Python
negative-index access `E[j-1]` (where `j = 0` selects the last edge) are kept
exactly; the claims below only concern `n ≥ 1` (for `n = 0` Python computes
`binom(m, -1) = 0` and skips the loop). -/
def brute_force_trees (n : Nat) (E : List (Nat × Nat)) : List (List (Nat × Nat)) :=
  (List.range (binom E.length (n - 1))).foldl (fun acc i =>
    let subset := unrank_kSubset i (n - 1) E.length
    let edgeSubset := subset.reverse.map
      (fun j => E.getD (if j = 0 then E.length - 1 else j - 1) (0, 0))
    if checkTree edgeSubset n then acc ++ [edgeSubset] else acc) []

/-- The 6 axis permutations iterated by `check_all_isomorphism`, in
`itertools.permutations('012')` order, as index triples (i, j, k). -/
def permList3 : List (Fin 3 × Fin 3 × Fin 3) :=
  [(0, 1, 2), (0, 2, 1), (1, 0, 2), (1, 2, 0), (2, 0, 1), (2, 1, 0)]

/-- The 8 reflection flag triples iterated by `check_all_isomorphism`, in
`itertools.product('01', repeat=3)` order. -/
def reflList3 : List (Bool × Bool × Bool) :=
  [(false, false, false), (false, false, true), (false, true, false), (false, true, true),
   (true, false, false), (true, false, true), (true, true, false), (true, true, true)]

/-- The per-axis reflection pivots `reflectPoints[i]`: the maximum value of
coordinate `i` over the candidate set `p2`. -/
def reflectPoint (p2 : List Coord) (i : Fin 3) : Int :=
  listMax (p2.map (fun c => getAxis c i))

/-- One transform of the 48-element group as applied inside
`check_all_isomorphism`: permute the axes by the index triple `P`, then
reflect each flagged output axis about the pivot of its source axis. -/
def applyPR (p2 : List Coord) (P : Fin 3 × Fin 3 × Fin 3) (R : Bool × Bool × Bool)
    (c : Coord) : Coord :=
  ((if R.1 then reflectPoint p2 P.1 - getAxis c P.1 else getAxis c P.1),
   (if R.2.1 then reflectPoint p2 P.2.1 - getAxis c P.2.1 else getAxis c P.2.1),
   (if R.2.2 then reflectPoint p2 P.2.2 - getAxis c P.2.2 else getAxis c P.2.2))

/-- The transform/compare loop body of `check_all_isomorphism` (defined only
when `p2` is non-empty; see the wrapper). -/
def check_all_iso_core (p1 p2 : List Coord) : Bool :=
  permList3.any (fun P => reflList3.any (fun R =>
    decide ((p2.map (applyPR p2 P R)).toFinset = p1.toFinset)))

/-- Model of `check_all_isomorphism(p1, p2)`: `none` models the
`IndexError` raised on an empty `p2` (`reflectPoints[i]` on `[]`). -/
def check_all_isomorphism (p1 p2 : List Coord) : Option Bool :=
  if p2.isEmpty then none else some (check_all_iso_core p1 p2)

/-- The 2 axis permutations iterated by `check_poly_isomorphism`, in
`itertools.permutations('01')` order. -/
def permList2 : List (Fin 3 × Fin 3) := [(0, 1), (1, 0)]

/-- The 4 reflection flag pairs iterated by `check_poly_isomorphism`, in
`itertools.product('01', repeat=2)` order. -/
def reflList2 : List (Bool × Bool) := [(false, false), (false, true), (true, false), (true, true)]

/-- One transform of the planar 8-element group as applied inside
`check_poly_isomorphism`: permute/reflect the first two axes, keep axis 2. -/
def applyPR2 (p2 : List Coord) (P : Fin 3 × Fin 3) (R : Bool × Bool) (c : Coord) : Coord :=
  ((if R.1 then reflectPoint p2 P.1 - getAxis c P.1 else getAxis c P.1),
   (if R.2 then reflectPoint p2 P.2 - getAxis c P.2 else getAxis c P.2),
   getAxis c 2)

/-- The transform/compare loop body of `check_poly_isomorphism`. -/
def check_poly_iso_core (p1 p2 : List Coord) : Bool :=
  permList2.any (fun P => reflList2.any (fun R =>
    decide ((p2.map (applyPR2 p2 P R)).toFinset = p1.toFinset)))

/-- Model of `check_poly_isomorphism(p1, p2)`: `none` models the
`IndexError` raised on an empty `p2`. -/
def check_poly_isomorphism (p1 p2 : List Coord) : Option Bool :=
  if p2.isEmpty then none else some (check_poly_iso_core p1 p2)

/-- A coordinate list is origin-normalized when the least value along each
axis is 0 (the driver's translation establishes exactly this). -/
def normalized (p : List Coord) : Prop :=
  ∀ i : Fin 3, listMin (p.map (fun c => getAxis c i)) = 0

instance (p : List Coord) : Decidable (normalized p) := by
  unfold normalized; infer_instance

/-- The translation step of `get_polycubes_of_size`: subtract the per-axis
minima so every axis starts at 0. -/
def translateToOrigin (p : List Coord) : List Coord :=
  p.map (fun c =>
    (c.1 - listMin (p.map (fun d => d.1)),
     c.2.1 - listMin (p.map (fun d => d.2.1)),
     c.2.2 - listMin (p.map (fun d => d.2.2))))

/-- The candidate coordinate set of rank `r` inside `get_polycubes_of_size k`:
unrank into a `k`-subset of the 125 cell indices, then decode each index. -/
def candidateOf (k r : Nat) : List Coord :=
  (unrank_kSubset r k 125).map decodeCoord

/-- The candidate of rank `r` after the translation step. -/
def canonOf (k r : Nat) : List Coord := translateToOrigin (candidateOf k r)

/-- Whether the candidate of rank `r` passes the connectivity filter. -/
def connectedCandidate (k r : Nat) : Prop := num_regions (candidateOf k r) = 1

instance (k r : Nat) : Decidable (connectedCandidate k r) := by
  unfold connectedCandidate; infer_instance

/-- One iteration of the accumulation loop of `get_polycubes_of_size`. -/
def stepFn (k : Nat) (acc : List (List Coord)) (r : Nat) : List (List Coord) :=
  if num_regions (candidateOf k r) ≠ 1 then acc
  else if acc.any (fun added => decide (check_poly_isomorphism added (canonOf k r) = some true))
    then acc
  else acc ++ [canonOf k r]

/-- Model of `get_polycubes_of_size(k)`: scan every rank of
`C(125, k)` subsets of the 5×5×5 box, keep connected candidates, translate
to the origin and deduplicate with the planar isomorphism test. -/
def get_polycubes_of_size (k : Nat) : List (List Coord) :=
  (List.range (binom 125 k)).foldl (stepFn k) []

/-- Loop invariant of the accumulation loop of `get_polycubes_of_size k`
after the ranks `0..t-1` have been processed: the accumulator is exactly the
translated candidates of an increasing list of accepted ranks, every
accepted rank is in range and connected, earlier accepted shapes reject
later ones, and every skipped connected rank was matched by an
earlier-accepted shape. -/
def DriverInv (k t : Nat) (acc : List (List Coord)) : Prop :=
  ∃ rs : List Nat,
    rs.Pairwise (· < ·) ∧
    acc = rs.map (canonOf k) ∧
    (∀ r ∈ rs, r < t ∧ connectedCandidate k r) ∧
    rs.Pairwise (fun r1 r2 =>
      check_poly_isomorphism (canonOf k r1) (canonOf k r2) = some false) ∧
    (∀ r, r < t → r ∉ rs → connectedCandidate k r →
      ∃ r' ∈ rs, r' < r ∧ check_poly_isomorphism (canonOf k r') (canonOf k r) = some true)

/-- The axis-permutation triple (i, j, k) as a function: output axis `m`
reads input axis `permFun3 P m`. -/
def permFun3 (P : Fin 3 × Fin 3 × Fin 3) : Fin 3 → Fin 3 := fin3 P.1 P.2.1 P.2.2

/-- The reflection flag triple as a function on output axes. -/
def reflFun3 (R : Bool × Bool × Bool) : Fin 3 → Bool := fin3 R.1 R.2.1 R.2.2

/-- The planar permutation pair as a function on axes (axis 2 is fixed). -/
def permFun2 (P : Fin 3 × Fin 3) : Fin 3 → Fin 3 := fin3 P.1 P.2 2

/-- The planar reflection flag pair as a function (axis 2 never reflected). -/
def reflFun2 (R : Bool × Bool) : Fin 3 → Bool := fin3 R.1 R.2 false

instance : IsAntisymm Nat (· > ·) :=
  ⟨fun a b h1 h2 => absurd (lt_trans h2 h1) (lt_irrefl a)⟩

/-- Canonical edge list of the simple path on `m` nodes. -/
def pathEdgeList (m : Nat) : List (Nat × Nat) :=
  (List.range (m - 1)).map (fun i => (i, i + 1))

/-- Canonical edge list of the 3-cycle on 3 nodes. -/
def triangleEdgeList : List (Nat × Nat) := [(0, 1), (0, 2), (1, 2)]

/-- The edge subset `brute_force_trees` builds at rank `r` for subset size
`κ`: the loop reverses the unranked index list and reads `E[j - 1]`, where
the Python negative index at `j = 0` selects the last edge. -/
def edgeSubsetOf (E : List (Nat × Nat)) (κ r : Nat) : List (Nat × Nat) :=
  (unrank_kSubset r κ E.length).reverse.map
    (fun j => E.getD (if j = 0 then E.length - 1 else j - 1) (0, 0))

theorem binom_eq_choose (n k : Nat) : binom n k = n.choose k :=
  (Nat.choose_eq_descFactorial_div_factorial n k).symm


/-! ### Combinatorial number system: theory of `unrank_kSubset` (claims C1, C9) -/

theorem findX_le (r j : Nat) : ∀ x, findX r j x ≤ x := by
  intro x
  induction x with
  | zero => simp [findX]
  | succ x ih =>
    rw [findX]
    split
    · exact Nat.le_succ_of_le ih
    · exact Nat.le_refl _

theorem findX_choose_le (r j : Nat) (hj : 0 < j) : ∀ x, binom (findX r j x) j ≤ r := by
  intro x
  induction x with
  | zero =>
    simp [findX, binom_eq_choose, Nat.choose_eq_zero_of_lt hj]
  | succ x ih =>
    rw [findX]
    split
    · exact ih
    · omega

theorem findX_eq_self (r j x : Nat) (h : binom x j ≤ r) : findX r j x = x := by
  cases x with
  | zero => simp [findX]
  | succ x => rw [findX, if_neg (by omega)]

theorem findX_bracket (r j : Nat) (hj : 0 < j) :
    ∀ x, r < binom x j → findX r j x < x ∧ r < binom (findX r j x + 1) j := by
  intro x
  induction x with
  | zero =>
    intro h
    rw [binom_eq_choose, Nat.choose_eq_zero_of_lt hj] at h
    omega
  | succ x ih =>
    intro h
    rw [findX, if_pos h]
    by_cases hx : r < binom x j
    · have := ih hx
      exact ⟨Nat.lt_succ_of_lt this.1, this.2⟩
    · rw [findX_eq_self r j x (by omega)]
      omega

theorem findX_unique (r j : Nat) (t : Nat) (h1 : binom t j ≤ r) (h2 : r < binom (t + 1) j) :
    ∀ x, t ≤ x → findX r j x = t := by
  intro x
  induction x with
  | zero =>
    intro hx
    have ht : t = 0 := by omega
    subst ht
    simp [findX]
  | succ x ih =>
    intro hx
    rcases Nat.lt_or_ge t (x + 1) with hlt | hge
    · have hcond : r < binom (x + 1) j := by
        calc r < binom (t + 1) j := h2
        _ ≤ binom (x + 1) j := by
          rw [binom_eq_choose, binom_eq_choose]
          exact Nat.choose_le_choose j (by omega)
      rw [findX, if_pos hcond]
      exact ih (by omega)
    · have : t = x + 1 := by omega
      subst this
      rw [findX, if_neg (by omega)]

theorem binom_pascal (t j : Nat) : binom (t + 1) (j + 1) = binom t j + binom t (j + 1) := by
  simp only [binom_eq_choose]
  exact Nat.choose_succ_succ t j

/-- Full specification of the unranking loop: for an in-range rank it emits a
strictly decreasing list of `j` values below the running bound whose
combinatorial rank is exactly the input rank. -/
theorem unrankAux_spec :
    ∀ j r x, r < binom x j →
      (unrankAux r x j).length = j ∧
      (∀ y ∈ unrankAux r x j, y < x) ∧
      List.Pairwise (· > ·) (unrankAux r x j) ∧
      rankOf (unrankAux r x j) = r := by
  intro j
  induction j with
  | zero =>
    intro r x h
    rw [binom_eq_choose, Nat.choose_zero_right] at h
    interval_cases r
    simp [unrankAux, rankOf]
  | succ j ih =>
    intro r x h
    have hbr := findX_bracket r (j + 1) (Nat.succ_pos j) x h
    have hle := findX_choose_le r (j + 1) (Nat.succ_pos j) x
    set t := findX r (j + 1) x with ht
    have hr' : r - binom t (j + 1) < binom t j := by
      have := binom_pascal t j
      omega
    obtain ⟨hlen, hmem, hpw, hrank⟩ := ih (r - binom t (j + 1)) t hr'
    have hunf : unrankAux r x (j + 1) = t :: unrankAux (r - binom t (j + 1)) t j := by
      rw [unrankAux]
    rw [hunf]
    refine ⟨by simp [hlen], ?_, ?_, ?_⟩
    · intro y hy
      rcases List.mem_cons.1 hy with rfl | hy
      · exact hbr.1
      · exact lt_trans (hmem y hy) hbr.1
    · exact List.pairwise_cons.2 ⟨fun y hy => hmem y hy, hpw⟩
    · simp only [rankOf, hlen, hrank]
      omega

/-- The rank of a strictly decreasing list is below the binomial coefficient
of any strict upper bound of its entries. -/
theorem rankOf_lt :
    ∀ T : List Nat, ∀ f, List.Pairwise (· > ·) T → (∀ y ∈ T, y < f) →
      rankOf T < binom f T.length := by
  intro T
  induction T with
  | nil =>
    intro f _ _
    simp [rankOf, binom_eq_choose]
  | cons g T ih =>
    intro f hpw hmem
    have hg : g < f := hmem g (List.mem_cons_self g T)
    obtain ⟨hhead, htail⟩ := List.pairwise_cons.1 hpw
    have hTg : rankOf T < binom g T.length := ih g htail (fun y hy => hhead y hy)
    have hmono : binom (g + 1) (T.length + 1) ≤ binom f (T.length + 1) := by
      rw [binom_eq_choose, binom_eq_choose]
      exact Nat.choose_le_choose _ hg
    have := binom_pascal g T.length
    simp only [rankOf, List.length_cons]
    omega

/-- Unranking is a left inverse of `rankOf` on strictly decreasing bounded
lists: every such list is recovered from its rank. -/
theorem unrankAux_rankOf :
    ∀ T : List Nat, ∀ x, List.Pairwise (· > ·) T → (∀ y ∈ T, y < x) →
      unrankAux (rankOf T) x T.length = T := by
  intro T
  induction T with
  | nil => intro x _ _; simp [unrankAux, rankOf]
  | cons t T ih =>
    intro x hpw hmem
    obtain ⟨hhead, htail⟩ := List.pairwise_cons.1 hpw
    have hrT : rankOf T < binom t T.length :=
      rankOf_lt T t htail (fun y hy => hhead y hy)
    have h1 : binom t (T.length + 1) ≤ rankOf (t :: T) := by
      simp [rankOf]
    have h2 : rankOf (t :: T) < binom (t + 1) (T.length + 1) := by
      have := binom_pascal t T.length
      simp only [rankOf]
      omega
    have hfx : findX (rankOf (t :: T)) (T.length + 1) x = t :=
      findX_unique _ _ t h1 h2 x (le_of_lt (hmem t (List.mem_cons_self t T)))
    have hsub : rankOf (t :: T) - binom t (T.length + 1) = rankOf T := by
      simp only [rankOf]; omega
    calc unrankAux (rankOf (t :: T)) x (T.length + 1)
        = findX (rankOf (t :: T)) (T.length + 1) x ::
            unrankAux (rankOf (t :: T) - binom (findX (rankOf (t :: T)) (T.length + 1) x)
              (T.length + 1)) (findX (rankOf (t :: T)) (T.length + 1) x) T.length := by
          rw [unrankAux]
      _ = t :: unrankAux (rankOf T) t T.length := by rw [hfx, hsub]
      _ = t :: T := by rw [ih t htail (fun y hy => hhead y hy)]

theorem list_toFinset_map {α β : Type} [DecidableEq α] [DecidableEq β] (f : α → β)
    (l : List α) : (l.map f).toFinset = l.toFinset.image f := by
  ext b
  simp [List.mem_toFinset, List.mem_map, Finset.mem_image]

theorem sortedGT_nodup {T : List Nat} (h : List.Pairwise (· > ·) T) : T.Nodup :=
  h.imp (fun hgt => Nat.ne_of_gt hgt)

/-- A strictly decreasing list of naturals is determined by its set of
members. -/
theorem sortedGT_toFinset_inj {T1 T2 : List Nat} (h1 : List.Pairwise (· > ·) T1)
    (h2 : List.Pairwise (· > ·) T2) (h : T1.toFinset = T2.toFinset) : T1 = T2 := by
  have hperm : T1.Perm T2 :=
    List.perm_of_nodup_nodup_toFinset_eq (sortedGT_nodup h1) (sortedGT_nodup h2) h
  exact List.eq_of_perm_of_sorted hperm h1 h2

/-- Every finite set of naturals below a bound is the member set of a unique
strictly decreasing list, namely the reversed sorted order. -/
theorem finset_sortedGT (s : Finset Nat) :
    ∃ T : List Nat, List.Pairwise (· > ·) T ∧ T.toFinset = s ∧ T.length = s.card ∧
      ∀ y ∈ T, y ∈ s := by
  refine ⟨(s.sort (· ≤ ·)).reverse, ?_, ?_, ?_, ?_⟩
  · rw [List.pairwise_reverse]
    exact s.sort_sorted_lt
  · rw [List.toFinset_reverse, Finset.sort_toFinset]
  · rw [List.length_reverse, Finset.length_sort]
  · intro y hy
    rw [List.mem_reverse, Finset.mem_sort] at hy
    exact hy

/-- Claim C1 (amended): for `0 < k ≤ n`, `unrank_kSubset` restricted to ranks
in `[0, C(n,k))` is a bijection onto the k-subsets of `{0..n-1}` (the code is
0-based, not 1-based as the specification claims): every in-range rank yields
a strictly decreasing list of `k` values below `n`, distinct ranks yield
distinct member sets, and every `k`-element subset of `{0..n-1}` is produced
by exactly one in-range rank. -/
theorem unrank_kSubset_bijection (k n : Nat) (hk : 0 < k) (hkn : k ≤ n) :
    (∀ r, r < binom n k →
      (unrank_kSubset r k n).length = k ∧
      List.Pairwise (· > ·) (unrank_kSubset r k n) ∧
      ∀ y ∈ unrank_kSubset r k n, y < n) ∧
    (∀ r1 r2, r1 < binom n k → r2 < binom n k →
      (unrank_kSubset r1 k n).toFinset = (unrank_kSubset r2 k n).toFinset → r1 = r2) ∧
    (∀ s : Finset Nat, s.card = k → (∀ y ∈ s, y < n) →
      ∃! r, r < binom n k ∧ (unrank_kSubset r k n).toFinset = s) := by
  have hspec : ∀ r, r < binom n k →
      (unrank_kSubset r k n).length = k ∧
      (∀ y ∈ unrank_kSubset r k n, y < n) ∧
      List.Pairwise (· > ·) (unrank_kSubset r k n) ∧
      rankOf (unrank_kSubset r k n) = r := fun r hr => unrankAux_spec k r n hr
  refine ⟨fun r hr => ⟨(hspec r hr).1, (hspec r hr).2.2.1, (hspec r hr).2.1⟩, ?_, ?_⟩
  · intro r1 r2 h1 h2 hst
    obtain ⟨hl1, hm1, hp1, hr1⟩ := hspec r1 h1
    obtain ⟨hl2, hm2, hp2, hr2⟩ := hspec r2 h2
    have : unrank_kSubset r1 k n = unrank_kSubset r2 k n :=
      sortedGT_toFinset_inj hp1 hp2 hst
    rw [← hr1, ← hr2, this]
  · intro s hcard hmem
    obtain ⟨T, hTpw, hTs, hTlen, hTmem⟩ := finset_sortedGT s
    have hTbound : ∀ y ∈ T, y < n := fun y hy => hmem y (hTmem y hy)
    have hrank : rankOf T < binom n T.length := rankOf_lt T n hTpw hTbound
    have hlen : T.length = k := by rw [hTlen, hcard]
    have hback : unrank_kSubset (rankOf T) k n = T := by
      rw [unrank_kSubset, ← hlen]
      exact unrankAux_rankOf T n hTpw hTbound
    refine ⟨rankOf T, ⟨by rw [← hlen]; exact hrank, by rw [hback, hTs]⟩, ?_⟩
    intro r ⟨hr, hrs⟩
    obtain ⟨hl, hm, hp, hrr⟩ := hspec r hr
    have : unrank_kSubset r k n = T := by
      refine sortedGT_toFinset_inj hp hTpw ?_
      rw [hrs, hTs]
    rw [← hrr, this]

/-- Claim C1, counterexample to the 1-based range claimed by the
specification: for `k = n = 1` the only in-range rank is 0 and it produces
the subset `{0}`, never the subset `{1}` of `{1..1}`. -/
theorem unrank_kSubset_not_one_based :
    binom 1 1 = 1 ∧ unrank_kSubset 0 1 1 = [0] ∧
      (unrank_kSubset 0 1 1).toFinset ≠ ({1} : Finset Nat) := by
  refine ⟨by decide, by decide, by decide⟩

theorem unrank_kSubset_bijection_witness :
    (∀ r, r < binom 3 2 →
      (unrank_kSubset r 2 3).length = 2 ∧
      List.Pairwise (· > ·) (unrank_kSubset r 2 3) ∧
      ∀ y ∈ unrank_kSubset r 2 3, y < 3) ∧
    (∀ r1 r2, r1 < binom 3 2 → r2 < binom 3 2 →
      (unrank_kSubset r1 2 3).toFinset = (unrank_kSubset r2 2 3).toFinset → r1 = r2) ∧
    (∀ s : Finset Nat, s.card = 2 → (∀ y ∈ s, y < 3) →
      ∃! r, r < binom 3 2 ∧ (unrank_kSubset r 2 3).toFinset = s) :=
  unrank_kSubset_bijection 2 3 (by decide) (by decide)

/-! ### Taxicab distance and the connectivity filter (claims C7, C8) -/

theorem taxi_foldl_sum (l : List (Int × Int)) :
    ∀ a : Int, l.foldl (fun d p => d + |p.1 - p.2|) a = a + (l.map (fun p => |p.1 - p.2|)).sum := by
  induction l with
  | nil => intro a; simp
  | cons p l ih =>
    intro a
    simp only [List.foldl_cons, List.map_cons, List.sum_cons, ih]
    ring

/-- Claim C8: `taxi_distance` fails (raises, modelled by `none`) exactly when
the two vectors have different lengths; on equal lengths it returns the sum
of the positionwise absolute differences.  The model is a pure function, so
the equal-length case computes the distance and nothing else, and the
mismatch case produces the error before any distance computation. -/
theorem taxi_distance_spec (v1 v2 : List Int) :
    (taxi_distance v1 v2 = none ↔ v1.length ≠ v2.length) ∧
    (v1.length = v2.length →
      taxi_distance v1 v2 = some (((v1.zip v2).map (fun p => |p.1 - p.2|)).sum)) := by
  constructor
  · constructor
    · intro h hlen
      rw [taxi_distance, if_pos hlen] at h
      exact Option.some_ne_none _ h
    · intro h
      rw [taxi_distance, if_neg h]
  · intro hlen
    rw [taxi_distance, if_pos hlen, taxi_foldl_sum, zero_add]

theorem taxi_coord (c1 c2 : Coord) :
    taxi_distance (coordToList c1) (coordToList c2) =
      some (|c1.1 - c2.1| + |c1.2.1 - c2.2.1| + |c1.2.2 - c2.2.2|) := by
  simp only [taxi_distance, coordToList, List.length_cons, List.length_nil, if_pos,
    List.zip_cons_cons, List.zip_nil_right, List.foldl_cons, List.foldl_nil, zero_add]

theorem taxi_coord_self (c : Coord) :
    taxi_distance (coordToList c) (coordToList c) = some 0 := by
  rw [taxi_coord]
  simp

theorem taxi_coord_comm (c1 c2 : Coord) :
    taxi_distance (coordToList c1) (coordToList c2) =
      taxi_distance (coordToList c2) (coordToList c1) := by
  rw [taxi_coord, taxi_coord, abs_sub_comm, abs_sub_comm c1.2.1, abs_sub_comm c1.2.2]

theorem graph_pair (a b : Coord) :
    polycube_to_graph [a, b] =
      [[decide (taxi_distance (coordToList a) (coordToList a) = some 1),
        decide (taxi_distance (coordToList a) (coordToList b) = some 1)],
       [decide (taxi_distance (coordToList b) (coordToList a) = some 1),
        decide (taxi_distance (coordToList b) (coordToList b) = some 1)]] := by
  rfl

/-- Two-cube coordinate sets: `num_regions` is 1 exactly on taxicab distance
1, else 2 components. -/
theorem num_regions_pair (a b : Coord) :
    num_regions [a, b] =
      if taxi_distance (coordToList a) (coordToList b) = some 1 then 1 else 2 := by
  by_cases h : taxi_distance (coordToList a) (coordToList b) = some 1
  · rw [if_pos h]
    have hba : taxi_distance (coordToList b) (coordToList a) = some 1 := by
      rw [taxi_coord_comm]; exact h
    have hgraph : polycube_to_graph [a, b] = [[false, true], [true, false]] := by
      rw [graph_pair, taxi_coord_self, taxi_coord_self, h, hba]
      norm_num
    rw [num_regions, hgraph]
    decide
  · rw [if_neg h]
    have hba : ¬taxi_distance (coordToList b) (coordToList a) = some 1 := by
      rw [taxi_coord_comm]; exact h
    have hgraph : polycube_to_graph [a, b] = [[false, false], [false, false]] := by
      rw [graph_pair, taxi_coord_self, taxi_coord_self]
      simp [h, hba]
    rw [num_regions, hgraph]
    decide

/-- Claim C7: a set of exactly two coordinates at Manhattan distance 2 has
two connected regions, and at Manhattan distance 1 a single region. -/
theorem num_regions_two_cubes (a b : Coord) :
    (taxi_distance (coordToList a) (coordToList b) = some 2 → num_regions [a, b] = 2) ∧
    (taxi_distance (coordToList a) (coordToList b) = some 1 → num_regions [a, b] = 1) := by
  constructor
  · intro h
    rw [num_regions_pair, if_neg (by rw [h]; decide)]
  · intro h
    rw [num_regions_pair, if_pos h]

/-! ### List maxima and minima (pivots of the symmetry tests) -/

theorem foldl_max_facts :
    ∀ (t : List Int) (a : Int), a ≤ t.foldl max a ∧ ∀ x ∈ t, x ≤ t.foldl max a := by
  intro t
  induction t with
  | nil => intro a; exact ⟨le_refl a, by simp⟩
  | cons b t ih =>
    intro a
    simp only [List.foldl_cons]
    obtain ⟨h1, h2⟩ := ih (max a b)
    refine ⟨le_trans (le_max_left a b) h1, ?_⟩
    intro x hx
    rcases List.mem_cons.1 hx with rfl | hx
    · exact le_trans (le_max_right a x) h1
    · exact h2 x hx

theorem foldl_min_facts :
    ∀ (t : List Int) (a : Int), t.foldl min a ≤ a ∧ ∀ x ∈ t, t.foldl min a ≤ x := by
  intro t
  induction t with
  | nil => intro a; exact ⟨le_refl a, by simp⟩
  | cons b t ih =>
    intro a
    simp only [List.foldl_cons]
    obtain ⟨h1, h2⟩ := ih (min a b)
    refine ⟨le_trans h1 (min_le_left a b), ?_⟩
    intro x hx
    rcases List.mem_cons.1 hx with rfl | hx
    · exact le_trans h1 (min_le_right a x)
    · exact h2 x hx

theorem le_listMax {l : List Int} {x : Int} (hx : x ∈ l) : x ≤ listMax l := by
  cases l with
  | nil => cases hx
  | cons a t =>
    rw [listMax]
    rcases List.mem_cons.1 hx with rfl | hx
    · exact (foldl_max_facts t x).1
    · exact (foldl_max_facts t a).2 x hx

theorem listMin_le {l : List Int} {x : Int} (hx : x ∈ l) : listMin l ≤ x := by
  cases l with
  | nil => cases hx
  | cons a t =>
    rw [listMin]
    rcases List.mem_cons.1 hx with rfl | hx
    · exact (foldl_min_facts t x).1
    · exact (foldl_min_facts t a).2 x hx

theorem foldl_max_mem : ∀ (t : List Int) (a : Int), t.foldl max a = a ∨ t.foldl max a ∈ t := by
  intro t
  induction t with
  | nil => intro a; exact Or.inl rfl
  | cons b t ih =>
    intro a
    simp only [List.foldl_cons]
    rcases ih (max a b) with h | h
    · rcases max_choice a b with hab | hab
      · exact Or.inl (by rw [h, hab])
      · refine Or.inr ?_
        rw [h, hab]
        exact List.mem_cons_self b t
    · exact Or.inr (List.mem_cons_of_mem b h)

theorem listMax_mem {l : List Int} (hl : l ≠ []) : listMax l ∈ l := by
  cases l with
  | nil => exact absurd rfl hl
  | cons a t =>
    rw [listMax]
    rcases foldl_max_mem t a with h | h
    · rw [h]; exact List.mem_cons_self a t
    · exact List.mem_cons_of_mem a h

theorem foldl_min_mem : ∀ (t : List Int) (a : Int), t.foldl min a = a ∨ t.foldl min a ∈ t := by
  intro t
  induction t with
  | nil => intro a; exact Or.inl rfl
  | cons b t ih =>
    intro a
    simp only [List.foldl_cons]
    rcases ih (min a b) with h | h
    · rcases min_choice a b with hab | hab
      · exact Or.inl (by rw [h, hab])
      · refine Or.inr ?_
        rw [h, hab]
        exact List.mem_cons_self b t
    · exact Or.inr (List.mem_cons_of_mem b h)

theorem listMin_mem {l : List Int} (hl : l ≠ []) : listMin l ∈ l := by
  cases l with
  | nil => exact absurd rfl hl
  | cons a t =>
    rw [listMin]
    rcases foldl_min_mem t a with h | h
    · rw [h]; exact List.mem_cons_self a t
    · exact List.mem_cons_of_mem a h

/-- The maximum of a non-empty list depends only on its set of members. -/
theorem listMax_eq_of_mem_iff {l1 l2 : List Int} (h1 : l1 ≠ []) (h2 : l2 ≠ [])
    (h : ∀ x, x ∈ l1 ↔ x ∈ l2) : listMax l1 = listMax l2 :=
  le_antisymm (le_listMax ((h _).1 (listMax_mem h1)))
    (le_listMax ((h _).2 (listMax_mem h2)))

/-- Characterization of `listMax` by membership and upper bound. -/
theorem listMax_eq_of {l : List Int} {a : Int} (hmem : a ∈ l) (hub : ∀ x ∈ l, x ≤ a) :
    listMax l = a :=
  le_antisymm (hub _ (listMax_mem (List.ne_nil_of_mem hmem))) (le_listMax hmem)

theorem listMin_eq_of {l : List Int} {a : Int} (hmem : a ∈ l) (hlb : ∀ x ∈ l, a ≤ x) :
    listMin l = a :=
  le_antisymm (listMin_le hmem) (hlb _ (listMin_mem (List.ne_nil_of_mem hmem)))

/-! ### Symmetry-test transform algebra (claims C3, C5, C10) -/

theorem coord_ext {c1 c2 : Coord} (h : ∀ m : Fin 3, getAxis c1 m = getAxis c2 m) :
    c1 = c2 := by
  obtain ⟨x1, y1, z1⟩ := c1
  obtain ⟨x2, y2, z2⟩ := c2
  have h0 := h 0
  have h1 := h 1
  have h2 := h 2
  simp only [getAxis, fin3] at h0 h1 h2
  simp [h0, h1, h2]

theorem getAxis_applyPR (p2 : List Coord) (P : Fin 3 × Fin 3 × Fin 3)
    (R : Bool × Bool × Bool) (c : Coord) (m : Fin 3) :
    getAxis (applyPR p2 P R c) m =
      if reflFun3 R m then reflectPoint p2 (permFun3 P m) - getAxis c (permFun3 P m)
      else getAxis c (permFun3 P m) := by
  obtain ⟨i, j, k⟩ := P
  obtain ⟨r1, r2, r3⟩ := R
  fin_cases m <;> rfl

theorem getAxis_applyPR2 (p2 : List Coord) (P : Fin 3 × Fin 3)
    (R : Bool × Bool) (c : Coord) (m : Fin 3) :
    getAxis (applyPR2 p2 P R c) m =
      if reflFun2 R m then reflectPoint p2 (permFun2 P m) - getAxis c (permFun2 P m)
      else getAxis c (permFun2 P m) := by
  obtain ⟨i, j⟩ := P
  obtain ⟨r1, r2⟩ := R
  fin_cases m <;> rfl

/-- Key bounding fact: a transform whose axis formula reads axis `σ m` of an
origin-normalized candidate set, reflecting about that axis's own maximum
when flagged, sends the candidate set to a set whose every axis again starts
at 0 and whose axis-`m` maximum is the source axis `σ m` maximum. -/
theorem transform_bounds (p2 : List Coord) (σ : Fin 3 → Fin 3) (ρ : Fin 3 → Bool)
    (f : Coord → Coord)
    (hf : ∀ c m, getAxis (f c) m =
      if ρ m then reflectPoint p2 (σ m) - getAxis c (σ m) else getAxis c (σ m))
    (hp : p2 ≠ []) (hn : normalized p2) (m : Fin 3) :
    listMin ((p2.map f).map (fun c => getAxis c m)) = 0 ∧
    listMax ((p2.map f).map (fun c => getAxis c m)) = reflectPoint p2 (σ m) := by
  have hmap : (p2.map f).map (fun c => getAxis c m) =
      p2.map (fun c => if ρ m then reflectPoint p2 (σ m) - getAxis c (σ m)
        else getAxis c (σ m)) := by
    rw [List.map_map]
    exact List.map_congr_left (fun c _ => hf c m)
  have hlne : p2.map (fun c => getAxis c (σ m)) ≠ [] := by
    simp [hp]
  have hmin0 : listMin (p2.map (fun c => getAxis c (σ m))) = 0 := hn (σ m)
  have hlb : ∀ c ∈ p2, 0 ≤ getAxis c (σ m) := by
    intro c hc
    rw [← hmin0]
    exact listMin_le (List.mem_map_of_mem _ hc)
  have hub : ∀ c ∈ p2, getAxis c (σ m) ≤ reflectPoint p2 (σ m) := by
    intro c hc
    exact le_listMax (List.mem_map_of_mem _ hc)
  have hminmem : ∃ c ∈ p2, getAxis c (σ m) = 0 := by
    have := listMin_mem hlne
    rw [hmin0] at this
    obtain ⟨c, hc, hcv⟩ := List.mem_map.1 this
    exact ⟨c, hc, hcv⟩
  have hmaxmem : ∃ c ∈ p2, getAxis c (σ m) = reflectPoint p2 (σ m) := by
    have := listMax_mem hlne
    obtain ⟨c, hc, hcv⟩ := List.mem_map.1 this
    exact ⟨c, hc, hcv⟩
  rw [hmap]
  by_cases hρ : ρ m = true
  · simp only [hρ, if_pos]
    obtain ⟨cmin, hcmin, hcminv⟩ := hminmem
    obtain ⟨cmax, hcmax, hcmaxv⟩ := hmaxmem
    constructor
    · refine listMin_eq_of ?_ ?_
      · refine List.mem_map.2 ⟨cmax, hcmax, ?_⟩
        rw [hcmaxv, sub_self]
      · intro x hx
        obtain ⟨c, hc, rfl⟩ := List.mem_map.1 hx
        have := hub c hc
        omega
    · refine listMax_eq_of ?_ ?_
      · refine List.mem_map.2 ⟨cmin, hcmin, ?_⟩
        rw [hcminv, sub_zero]
      · intro x hx
        obtain ⟨c, hc, rfl⟩ := List.mem_map.1 hx
        have := hlb c hc
        omega
  · have hρ' : ρ m = false := by
      cases hρm : ρ m
      · rfl
      · exact absurd hρm hρ
    simp only [hρ', if_neg, Bool.false_eq_true, not_false_iff, if_false]
    constructor
    · exact hmin0
    · rfl

/-- Inverse-transform lemma: if a transform of the (normalized, non-empty)
candidate set `B` produces exactly the member set of `A`, then the inverse
axis permutation with the correspondingly permuted reflection flags, with
pivots taken from `A` itself, transforms `A` back onto the member set of
`B`. -/
theorem transform_inverse (A B : List Coord) (σ σi : Fin 3 → Fin 3) (ρ : Fin 3 → Bool)
    (f g : Coord → Coord)
    (hf : ∀ c m, getAxis (f c) m =
      if ρ m then reflectPoint B (σ m) - getAxis c (σ m) else getAxis c (σ m))
    (hg : ∀ c m, getAxis (g c) m =
      if ρ (σi m) then reflectPoint A (σi m) - getAxis c (σi m) else getAxis c (σi m))
    (hσ1 : ∀ m, σ (σi m) = m) (hσ2 : ∀ m, σi (σ m) = m)
    (hB : B ≠ []) (hnB : normalized B)
    (hBA : (B.map f).toFinset = A.toFinset) :
    (A.map g).toFinset = B.toFinset := by
  have hmemBA : ∀ x, x ∈ B.map f ↔ x ∈ A := by
    intro x
    rw [← List.mem_toFinset, hBA, List.mem_toFinset]
  have hA : A ≠ [] := by
    obtain ⟨b, hb⟩ := List.exists_mem_of_ne_nil B hB
    exact List.ne_nil_of_mem ((hmemBA (f b)).1 (List.mem_map_of_mem f hb))
  have hmaxT : ∀ m, reflectPoint A m = reflectPoint B (σ m) := by
    intro m
    have h1 : reflectPoint A m = listMax ((B.map f).map (fun c => getAxis c m)) := by
      refine listMax_eq_of_mem_iff (by simp [hA]) (by simp [hB]) ?_
      intro v
      constructor
      · intro hv
        obtain ⟨a, ha, rfl⟩ := List.mem_map.1 hv
        exact List.mem_map.2 ⟨a, (hmemBA a).2 ha, rfl⟩
      · intro hv
        obtain ⟨a, ha, rfl⟩ := List.mem_map.1 hv
        exact List.mem_map.2 ⟨a, (hmemBA a).1 ha, rfl⟩
    rw [h1]
    exact (transform_bounds B σ ρ f hf hB hnB m).2
  have hinv : ∀ c, g (f c) = c := by
    intro c
    refine coord_ext ?_
    intro m
    rw [hg]
    have hfc : getAxis (f c) (σi m) =
        if ρ (σi m) then reflectPoint B m - getAxis c m else getAxis c m := by
      rw [hf, hσ1]
    by_cases hρ : ρ (σi m) = true
    · rw [hfc]
      simp only [hρ, if_pos, hmaxT (σi m), hσ1]
      ring
    · have hρ' : ρ (σi m) = false := by
        cases hρm : ρ (σi m)
        · rfl
        · exact absurd hρm hρ
      rw [hfc]
      simp only [hρ', Bool.false_eq_true, if_false]
  ext e
  simp only [List.mem_toFinset, List.mem_map]
  constructor
  · rintro ⟨d, hd, rfl⟩
    obtain ⟨c, hc, rfl⟩ := List.mem_map.1 ((hmemBA d).2 hd)
    rw [hinv c]
    exact hc
  · intro he
    refine ⟨f e, (hmemBA (f e)).1 (List.mem_map_of_mem f he), hinv e⟩

theorem mem_reflList3 (x y z : Bool) : (x, y, z) ∈ reflList3 := by
  cases x <;> cases y <;> cases z <;> decide

theorem mem_reflList2 (x y : Bool) : (x, y) ∈ reflList2 := by
  cases x <;> cases y <;> decide

theorem check_all_iso_core_iff (p1 p2 : List Coord) :
    check_all_iso_core p1 p2 = true ↔
      ∃ P ∈ permList3, ∃ R ∈ reflList3,
        (p2.map (applyPR p2 P R)).toFinset = p1.toFinset := by
  simp [check_all_iso_core, List.any_eq_true]

theorem check_poly_iso_core_iff (p1 p2 : List Coord) :
    check_poly_iso_core p1 p2 = true ↔
      ∃ P ∈ permList2, ∃ R ∈ reflList2,
        (p2.map (applyPR2 p2 P R)).toFinset = p1.toFinset := by
  simp [check_poly_iso_core, List.any_eq_true]

theorem check_all_symm_step (A B : List Coord) (P P' : Fin 3 × Fin 3 × Fin 3)
    (R R' : Bool × Bool × Bool)
    (hPP : ∀ m, permFun3 P (permFun3 P' m) = m)
    (hPP2 : ∀ m, permFun3 P' (permFun3 P m) = m)
    (hRR : ∀ m, reflFun3 R' m = reflFun3 R (permFun3 P' m))
    (hB : B ≠ []) (hnB : normalized B)
    (heq : (B.map (applyPR B P R)).toFinset = A.toFinset) :
    (A.map (applyPR A P' R')).toFinset = B.toFinset := by
  refine transform_inverse A B (permFun3 P) (permFun3 P') (reflFun3 R)
    (applyPR B P R) (applyPR A P' R') (getAxis_applyPR B P R) ?_ hPP hPP2 hB hnB heq
  intro c m
  rw [getAxis_applyPR, hRR]

theorem check_poly_symm_step (A B : List Coord) (P P' : Fin 3 × Fin 3)
    (R R' : Bool × Bool)
    (hPP : ∀ m, permFun2 P (permFun2 P' m) = m)
    (hPP2 : ∀ m, permFun2 P' (permFun2 P m) = m)
    (hRR : ∀ m, reflFun2 R' m = reflFun2 R (permFun2 P' m))
    (hB : B ≠ []) (hnB : normalized B)
    (heq : (B.map (applyPR2 B P R)).toFinset = A.toFinset) :
    (A.map (applyPR2 A P' R')).toFinset = B.toFinset := by
  refine transform_inverse A B (permFun2 P) (permFun2 P') (reflFun2 R)
    (applyPR2 B P R) (applyPR2 A P' R') (getAxis_applyPR2 B P R) ?_ hPP hPP2 hB hnB heq
  intro c m
  rw [getAxis_applyPR2, hRR]

theorem check_all_symm_core (A B : List Coord) (hB : B ≠ []) (hnB : normalized B)
    (h : check_all_iso_core A B = true) : check_all_iso_core B A = true := by
  rw [check_all_iso_core_iff] at h
  rw [check_all_iso_core_iff]
  obtain ⟨P, hP, R, hR, heq⟩ := h
  obtain ⟨r1, r2, r3⟩ := R
  simp only [permList3, List.mem_cons, List.not_mem_nil, or_false] at hP
  rcases hP with rfl | rfl | rfl | rfl | rfl | rfl
  · exact ⟨(0, 1, 2), by decide, (r1, r2, r3), mem_reflList3 r1 r2 r3,
      check_all_symm_step A B _ _ _ _ (by decide) (by decide)
        (by intro m; fin_cases m <;> rfl) hB hnB heq⟩
  · exact ⟨(0, 2, 1), by decide, (r1, r3, r2), mem_reflList3 r1 r3 r2,
      check_all_symm_step A B _ _ _ _ (by decide) (by decide)
        (by intro m; fin_cases m <;> rfl) hB hnB heq⟩
  · exact ⟨(1, 0, 2), by decide, (r2, r1, r3), mem_reflList3 r2 r1 r3,
      check_all_symm_step A B _ _ _ _ (by decide) (by decide)
        (by intro m; fin_cases m <;> rfl) hB hnB heq⟩
  · exact ⟨(2, 0, 1), by decide, (r3, r1, r2), mem_reflList3 r3 r1 r2,
      check_all_symm_step A B _ _ _ _ (by decide) (by decide)
        (by intro m; fin_cases m <;> rfl) hB hnB heq⟩
  · exact ⟨(1, 2, 0), by decide, (r2, r3, r1), mem_reflList3 r2 r3 r1,
      check_all_symm_step A B _ _ _ _ (by decide) (by decide)
        (by intro m; fin_cases m <;> rfl) hB hnB heq⟩
  · exact ⟨(2, 1, 0), by decide, (r3, r2, r1), mem_reflList3 r3 r2 r1,
      check_all_symm_step A B _ _ _ _ (by decide) (by decide)
        (by intro m; fin_cases m <;> rfl) hB hnB heq⟩

theorem check_poly_symm_core (A B : List Coord) (hB : B ≠ []) (hnB : normalized B)
    (h : check_poly_iso_core A B = true) : check_poly_iso_core B A = true := by
  rw [check_poly_iso_core_iff] at h
  rw [check_poly_iso_core_iff]
  obtain ⟨P, hP, R, hR, heq⟩ := h
  obtain ⟨r1, r2⟩ := R
  simp only [permList2, List.mem_cons, List.not_mem_nil, or_false] at hP
  rcases hP with rfl | rfl
  · exact ⟨(0, 1), by decide, (r1, r2), mem_reflList2 r1 r2,
      check_poly_symm_step A B _ _ _ _ (by decide) (by decide)
        (by intro m; fin_cases m <;> rfl) hB hnB heq⟩
  · exact ⟨(1, 0), by decide, (r2, r1), mem_reflList2 r2 r1,
      check_poly_symm_step A B _ _ _ _ (by decide) (by decide)
        (by intro m; fin_cases m <;> rfl) hB hnB heq⟩

theorem check_all_some_core (p1 p2 : List Coord) (h : p2 ≠ []) :
    check_all_isomorphism p1 p2 = some (check_all_iso_core p1 p2) := by
  rw [check_all_isomorphism, if_neg (by simp [h])]

theorem check_poly_some_core (p1 p2 : List Coord) (h : p2 ≠ []) :
    check_poly_isomorphism p1 p2 = some (check_poly_iso_core p1 p2) := by
  rw [check_poly_isomorphism, if_neg (by simp [h])]

/-- Shared symmetry helper: for non-empty origin-normalized coordinate
lists, a positive planar test in one order forces a positive planar test in
the other order. -/
theorem check_poly_symm (A B : List Coord) (hA : A ≠ []) (hB : B ≠ [])
    (hnB : normalized B) (h : check_poly_isomorphism A B = some true) :
    check_poly_isomorphism B A = some true := by
  rw [check_poly_some_core A B hB] at h
  rw [check_poly_some_core B A hA]
  exact congrArg some (check_poly_symm_core A B hB hnB (Option.some_injective _ h))

theorem check_all_symm (A B : List Coord) (hA : A ≠ []) (hB : B ≠ [])
    (hnB : normalized B) (h : check_all_isomorphism A B = some true) :
    check_all_isomorphism B A = some true := by
  rw [check_all_some_core A B hB] at h
  rw [check_all_some_core B A hA]
  exact congrArg some (check_all_symm_core A B hB hnB (Option.some_injective _ h))

/-- Claim C3 (amended): the symmetry property of both isomorphism tests
holds for non-empty, origin-normalized coordinate sets (per-axis minimum 0,
exactly the shape the enumeration driver feeds to the tests); for
non-normalized operands it fails, see the counterexample. -/
theorem isomorphism_tests_symmetric (A B : List Coord) (hA : A ≠ []) (hB : B ≠ [])
    (hnA : normalized A) (hnB : normalized B) :
    (check_all_isomorphism A B = some true → check_all_isomorphism B A = some true) ∧
    (check_poly_isomorphism A B = some true → check_poly_isomorphism B A = some true) :=
  ⟨check_all_symm A B hA hB hnB, check_poly_symm A B hA hB hnB⟩

/-- Claim C3, counterexample to the unrestricted claim: with
`A = {(0,0,0)}` and `B = {(1,0,0)}` both tests succeed on (A, B) — the
reflection pivot taken from B maps (1,0,0) to (0,0,0) — but fail on (B, A),
because every transform fixes the origin when the pivots are taken from
`{(0,0,0)}`. -/
theorem isomorphism_tests_not_symmetric :
    check_all_isomorphism [((0 : Int), (0 : Int), (0 : Int))] [(1, 0, 0)] = some true ∧
    check_all_isomorphism [((1 : Int), (0 : Int), (0 : Int))] [(0, 0, 0)] = some false ∧
    check_poly_isomorphism [((0 : Int), (0 : Int), (0 : Int))] [(1, 0, 0)] = some true ∧
    check_poly_isomorphism [((1 : Int), (0 : Int), (0 : Int))] [(0, 0, 0)] = some false := by
  refine ⟨by decide, by decide, by decide, by decide⟩

theorem isomorphism_tests_symmetric_witness :
    (check_all_isomorphism [((0 : Int), (1 : Int), (0 : Int)), (0, 0, 0)]
        [((1 : Int), (0 : Int), (0 : Int)), (0, 0, 0)] = some true →
      check_all_isomorphism [((1 : Int), (0 : Int), (0 : Int)), (0, 0, 0)]
        [((0 : Int), (1 : Int), (0 : Int)), (0, 0, 0)] = some true) ∧
    (check_poly_isomorphism [((0 : Int), (1 : Int), (0 : Int)), (0, 0, 0)]
        [((1 : Int), (0 : Int), (0 : Int)), (0, 0, 0)] = some true →
      check_poly_isomorphism [((1 : Int), (0 : Int), (0 : Int)), (0, 0, 0)]
        [((0 : Int), (1 : Int), (0 : Int)), (0, 0, 0)] = some true) :=
  isomorphism_tests_symmetric _ _ (by decide) (by decide) (by decide) (by decide)

theorem applyPR_id (p2 : List Coord) (c : Coord) :
    applyPR p2 (0, 1, 2) (false, false, false) c = c := by
  obtain ⟨x, y, z⟩ := c
  rfl

theorem applyPR2_id (p2 : List Coord) (c : Coord) :
    applyPR2 p2 (0, 1) (false, false) c = c := by
  obtain ⟨x, y, z⟩ := c
  rfl

/-- Claim C5 (amended): both isomorphism tests applied to (S, S) return true
for every non-empty coordinate set S, via the identity transform (identity
axis permutation, no reflections), which is the first transform each test
iterates.  On the empty set Python raises `IndexError` instead (see the
counterexample), so non-emptiness is required. -/
theorem isomorphism_tests_reflexive (S : List Coord) (hS : S ≠ []) :
    check_all_isomorphism S S = some true ∧ check_poly_isomorphism S S = some true := by
  constructor
  · rw [check_all_some_core S S hS]
    refine congrArg some ?_
    rw [check_all_iso_core_iff]
    refine ⟨(0, 1, 2), by decide, (false, false, false), by decide, ?_⟩
    rw [List.map_congr_left (fun c _ => applyPR_id S c)]
    simp
  · rw [check_poly_some_core S S hS]
    refine congrArg some ?_
    rw [check_poly_iso_core_iff]
    refine ⟨(0, 1), by decide, (false, false), by decide, ?_⟩
    rw [List.map_congr_left (fun c _ => applyPR2_id S c)]
    simp

/-- Claim C5, counterexample to the unrestricted claim: on the empty
coordinate set both tests raise `IndexError` in Python (`reflectPoints[i]`
on an empty list, modelled by `none`) rather than returning true. -/
theorem isomorphism_tests_reflexive_empty :
    check_all_isomorphism [] [] = none ∧ check_poly_isomorphism [] [] = none ∧
    check_all_isomorphism [] [] ≠ some true ∧ check_poly_isomorphism [] [] ≠ some true := by
  refine ⟨rfl, rfl, by decide, by decide⟩

theorem isomorphism_tests_reflexive_witness :
    check_all_isomorphism [((0 : Int), (0 : Int), (1 : Int)), (0, 0, 0)]
        [((0 : Int), (0 : Int), (1 : Int)), (0, 0, 0)] = some true ∧
    check_poly_isomorphism [((0 : Int), (0 : Int), (1 : Int)), (0, 0, 0)]
        [((0 : Int), (0 : Int), (1 : Int)), (0, 0, 0)] = some true :=
  isomorphism_tests_reflexive _ (by decide)

/-- Claim C10: every transformed coordinate set built inside
`check_all_isomorphism` from a non-empty origin-normalized candidate set is
again origin-normalized, with its axis-`m` maximum equal to the candidate's
maximum along the permuted source axis; likewise for the planar transforms
of `check_poly_isomorphism` (whose third axis is untouched). -/
theorem transforms_preserve_normalization (p2 : List Coord) (hp : p2 ≠ [])
    (hn : normalized p2) :
    (∀ P ∈ permList3, ∀ R ∈ reflList3, ∀ m : Fin 3,
      listMin ((p2.map (applyPR p2 P R)).map (fun c => getAxis c m)) = 0 ∧
      listMax ((p2.map (applyPR p2 P R)).map (fun c => getAxis c m)) =
        reflectPoint p2 (permFun3 P m)) ∧
    (∀ P ∈ permList2, ∀ R ∈ reflList2, ∀ m : Fin 3,
      listMin ((p2.map (applyPR2 p2 P R)).map (fun c => getAxis c m)) = 0 ∧
      listMax ((p2.map (applyPR2 p2 P R)).map (fun c => getAxis c m)) =
        reflectPoint p2 (permFun2 P m)) := by
  constructor
  · intro P _ R _ m
    exact transform_bounds p2 (permFun3 P) (reflFun3 R) (applyPR p2 P R)
      (getAxis_applyPR p2 P R) hp hn m
  · intro P _ R _ m
    exact transform_bounds p2 (permFun2 P) (reflFun2 R) (applyPR2 p2 P R)
      (getAxis_applyPR2 p2 P R) hp hn m

theorem transforms_preserve_normalization_witness :
    (∀ P ∈ permList3, ∀ R ∈ reflList3, ∀ m : Fin 3,
      listMin (([((0 : Int), (0 : Int), (1 : Int)), (0, 0, 0)].map
        (applyPR [((0 : Int), (0 : Int), (1 : Int)), (0, 0, 0)] P R)).map
          (fun c => getAxis c m)) = 0 ∧
      listMax (([((0 : Int), (0 : Int), (1 : Int)), (0, 0, 0)].map
        (applyPR [((0 : Int), (0 : Int), (1 : Int)), (0, 0, 0)] P R)).map
          (fun c => getAxis c m)) =
        reflectPoint [((0 : Int), (0 : Int), (1 : Int)), (0, 0, 0)] (permFun3 P m)) ∧
    (∀ P ∈ permList2, ∀ R ∈ reflList2, ∀ m : Fin 3,
      listMin (([((0 : Int), (0 : Int), (1 : Int)), (0, 0, 0)].map
        (applyPR2 [((0 : Int), (0 : Int), (1 : Int)), (0, 0, 0)] P R)).map
          (fun c => getAxis c m)) = 0 ∧
      listMax (([((0 : Int), (0 : Int), (1 : Int)), (0, 0, 0)].map
        (applyPR2 [((0 : Int), (0 : Int), (1 : Int)), (0, 0, 0)] P R)).map
          (fun c => getAxis c m)) =
        reflectPoint [((0 : Int), (0 : Int), (1 : Int)), (0, 0, 0)] (permFun2 P m)) :=
  transforms_preserve_normalization _ (by decide) (by decide)

/-! ### The enumeration driver on sizes 1 and 2 (claim C2) -/

theorem decodeCoord_eq : ∀ num ∈ List.range 125,
    decodeCoord num =
      (((num / 25 : Nat) : Int), ((num / 5 % 5 : Nat) : Int), ((num % 5 : Nat) : Int)) := by
  decide

theorem keydig (a1 b1 c1 a0 b0 c0 : Nat) (ha1 : a1 < 5) (hb1 : b1 < 5) (hc1 : c1 < 5)
    (ha0 : a0 < 5) (hb0 : b0 < 5) (hc0 : c0 < 5)
    (hlt : 25 * a0 + 5 * b0 + c0 < 25 * a1 + 5 * b1 + c1)
    (hd : ((a1 : Int) - a0).natAbs + ((b1 : Int) - b0).natAbs + ((c1 : Int) - c0).natAbs = 1) :
    (a1 = a0 + 1 ∧ b1 = b0 ∧ c1 = c0) ∨
    (a1 = a0 ∧ b1 = b0 + 1 ∧ c1 = c0) ∨
    (a1 = a0 ∧ b1 = b0 ∧ c1 = c0 + 1) := by
  omega

theorem translate_unit_x (x y z : Int) :
    translateToOrigin [(x + 1, y, z), (x, y, z)] = [(1, 0, 0), (0, 0, 0)] := by
  have h1 : min (x + 1) x = x := by omega
  simp [translateToOrigin, listMin, min_self, h1]

theorem translate_unit_y (x y z : Int) :
    translateToOrigin [(x, y + 1, z), (x, y, z)] = [(0, 1, 0), (0, 0, 0)] := by
  have h1 : min (y + 1) y = y := by omega
  simp [translateToOrigin, listMin, min_self, h1]

theorem translate_unit_z (x y z : Int) :
    translateToOrigin [(x, y, z + 1), (x, y, z)] = [(0, 0, 1), (0, 0, 0)] := by
  have h1 : min (z + 1) z = z := by omega
  simp [translateToOrigin, listMin, min_self, h1]

/-- Any connected two-cube candidate canonicalizes to one of the three
axis-aligned dominoes. -/
theorem connected_pair_canon (i1 i0 : Nat) (h1 : i1 < 125) (h0 : i0 < i1)
    (hd : taxi_distance (coordToList (decodeCoord i1)) (coordToList (decodeCoord i0)) = some 1) :
    translateToOrigin [decodeCoord i1, decodeCoord i0] =
        [((0 : Int), (0 : Int), (1 : Int)), (0, 0, 0)] ∨
    translateToOrigin [decodeCoord i1, decodeCoord i0] =
        [((0 : Int), (1 : Int), (0 : Int)), (0, 0, 0)] ∨
    translateToOrigin [decodeCoord i1, decodeCoord i0] =
        [((1 : Int), (0 : Int), (0 : Int)), (0, 0, 0)] := by
  have h0' : i0 < 125 := lt_trans h0 h1
  have e1 := decodeCoord_eq i1 (List.mem_range.2 h1)
  have e0 := decodeCoord_eq i0 (List.mem_range.2 h0')
  rw [e1, e0] at hd
  rw [taxi_coord] at hd
  have habs := Option.some_injective _ hd
  simp only [Int.abs_eq_natAbs] at habs
  have hsum : ((i1 / 25 : Int) - (i0 / 25 : Int)).natAbs +
      ((i1 / 5 % 5 : Int) - (i0 / 5 % 5 : Int)).natAbs +
      ((i1 % 5 : Int) - (i0 % 5 : Int)).natAbs = 1 := by exact_mod_cast habs
  have hcase := keydig (i1 / 25) (i1 / 5 % 5) (i1 % 5) (i0 / 25) (i0 / 5 % 5) (i0 % 5)
    (by omega) (by omega) (by omega) (by omega) (by omega) (by omega) (by omega)
    (by exact_mod_cast hsum)
  rw [e1, e0]
  rcases hcase with ⟨hA, hB, hC⟩ | ⟨hA, hB, hC⟩ | ⟨hA, hB, hC⟩
  · refine Or.inr (Or.inr ?_)
    rw [hA, hB, hC]
    push_cast
    exact translate_unit_x _ _ _
  · refine Or.inr (Or.inl ?_)
    rw [hA, hB, hC]
    push_cast
    exact translate_unit_y _ _ _
  · refine Or.inl ?_
    rw [hA, hB, hC]
    push_cast
    exact translate_unit_z _ _ _

theorem foldl_const {α β : Type} (f : β → α → β) (acc : β) :
    ∀ l : List α, (∀ x ∈ l, f acc x = acc) → l.foldl f acc = acc := by
  intro l
  induction l with
  | nil => intro _; rfl
  | cons x t ih =>
    intro h
    rw [List.foldl_cons, h x (List.mem_cons_self x t)]
    exact ih (fun y hy => h y (List.mem_cons_of_mem x hy))

/-- Once both dominoes are in the catalog, every further in-range rank of the
size-2 scan leaves the accumulator unchanged. -/
theorem stepFn_two_const (r : Nat) (hr : r < binom 125 2) :
    stepFn 2 [[((0 : Int), (0 : Int), (1 : Int)), (0, 0, 0)],
              [((0 : Int), (1 : Int), (0 : Int)), (0, 0, 0)]] r =
      [[((0 : Int), (0 : Int), (1 : Int)), (0, 0, 0)],
       [((0 : Int), (1 : Int), (0 : Int)), (0, 0, 0)]] := by
  rw [stepFn]
  by_cases hc : num_regions (candidateOf 2 r) ≠ 1
  · rw [if_pos hc]
  · rw [if_neg hc]
    push_neg at hc
    obtain ⟨hlen, hmem, hpw, _⟩ := unrankAux_spec 2 r 125 hr
    have hlen' : (unrank_kSubset r 2 125).length = 2 := hlen
    have hmem' : ∀ y ∈ unrank_kSubset r 2 125, y < 125 := hmem
    have hpw' : List.Pairwise (· > ·) (unrank_kSubset r 2 125) := hpw
    obtain ⟨i1, i0, hU⟩ := List.length_eq_two.1 hlen'
    have hi1 : i1 < 125 := by
      refine hmem' i1 ?_
      rw [hU]; exact List.mem_cons_self _ _
    have hi0 : i0 < i1 := by
      rw [hU] at hpw'
      obtain ⟨hh, _⟩ := List.pairwise_cons.1 hpw'
      exact hh i0 (List.mem_cons_self _ _)
    have hcand : candidateOf 2 r = [decodeCoord i1, decodeCoord i0] := by
      rw [candidateOf, hU]
      rfl
    have hd : taxi_distance (coordToList (decodeCoord i1)) (coordToList (decodeCoord i0)) =
        some 1 := by
      rw [hcand, num_regions_pair] at hc
      by_cases ht : taxi_distance (coordToList (decodeCoord i1))
          (coordToList (decodeCoord i0)) = some 1
      · exact ht
      · rw [if_neg ht] at hc; omega
    have hcanon : canonOf 2 r = translateToOrigin [decodeCoord i1, decodeCoord i0] := by
      rw [canonOf, hcand]
    rcases connected_pair_canon i1 i0 hi1 hi0 hd with hz | hy | hx
    · rw [hcanon, hz, if_pos (by decide)]
    · rw [hcanon, hy, if_pos (by decide)]
    · rw [hcanon, hx, if_pos (by decide)]

theorem gp_size_one_eq : get_polycubes_of_size 1 = [[((0 : Int), (0 : Int), (0 : Int))]] := by
  decide

theorem binom_125_2 : binom 125 2 = 7750 := by decide

theorem gp_size_two_prefix :
    (List.range' 0 11).foldl (stepFn 2) [] =
      [[((0 : Int), (0 : Int), (1 : Int)), (0, 0, 0)],
       [((0 : Int), (1 : Int), (0 : Int)), (0, 0, 0)]] := by
  decide

theorem gp_size_two_eq : get_polycubes_of_size 2 =
    [[((0 : Int), (0 : Int), (1 : Int)), (0, 0, 0)],
     [((0 : Int), (1 : Int), (0 : Int)), (0, 0, 0)]] := by
  rw [get_polycubes_of_size, binom_125_2]
  have hsplit : List.range 7750 = List.range' 0 11 ++ List.range' 11 7739 := by
    rw [List.range_eq_range']
    have h := List.range'_append 0 11 7739 1
    norm_num at h
    rw [h]
  rw [hsplit, List.foldl_append, gp_size_two_prefix]
  refine foldl_const _ _ _ ?_
  intro r hr
  rw [List.mem_range'_1] at hr
  exact stepFn_two_const r (by rw [binom_125_2]; omega)

/-- Claim C2 (amended): over the 5×5×5 box with planar-group dedup,
`get_polycubes_of_size 1` returns exactly 1 canonical shape and
`get_polycubes_of_size 2` returns exactly 2 canonical shapes: the planar
8-transform group identifies the two in-plane dominoes with each other, but
cannot identify the z-axis domino (the third axis is untouched), so the
face-adjacent pair yields two classes, not one. -/
theorem get_polycubes_sizes_one_two :
    get_polycubes_of_size 1 = [[((0 : Int), (0 : Int), (0 : Int))]] ∧
    (get_polycubes_of_size 1).length = 1 ∧
    get_polycubes_of_size 2 =
      [[((0 : Int), (0 : Int), (1 : Int)), (0, 0, 0)],
       [((0 : Int), (1 : Int), (0 : Int)), (0, 0, 0)]] ∧
    (get_polycubes_of_size 2).length = 2 := by
  exact ⟨gp_size_one_eq, by rw [gp_size_one_eq]; rfl, gp_size_two_eq, by rw [gp_size_two_eq]; rfl⟩

/-- Claim C2, counterexample to "size 2 → exactly 1 canonical shape": the
catalog for size 2 has exactly 2 entries. -/
theorem get_polycubes_size_two_not_one :
    (get_polycubes_of_size 2).length = 2 ∧ (get_polycubes_of_size 2).length ≠ 1 := by
  rw [gp_size_two_eq]
  exact ⟨rfl, by decide⟩

/-! ### Invariants of the enumeration driver (claim C4) -/

theorem num_regions_nil : num_regions [] = 0 := rfl

theorem connected_candidate_nonempty {k r : Nat} (h : connectedCandidate k r) :
    candidateOf k r ≠ [] := by
  intro hnil
  rw [connectedCandidate, hnil, num_regions_nil] at h
  exact absurd h (by omega)

theorem decode_inj : ∀ i1 ∈ List.range 125, ∀ i2 ∈ List.range 125,
    decodeCoord i1 = decodeCoord i2 → i1 = i2 := by
  intro i1 h1 i2 h2 heq
  rw [decodeCoord_eq i1 h1, decodeCoord_eq i2 h2] at heq
  have ha := congrArg Prod.fst heq
  have hb := congrArg (fun p : Coord => p.2.1) heq
  have hc := congrArg (fun p : Coord => p.2.2) heq
  simp only at ha hb hc
  have ha' : i1 / 25 = i2 / 25 := by exact_mod_cast ha
  have hb' : i1 / 5 % 5 = i2 / 5 % 5 := by exact_mod_cast hb
  have hc' : i1 % 5 = i2 % 5 := by exact_mod_cast hc
  rw [List.mem_range] at h1 h2
  omega

theorem translate_shift (p : List Coord) :
    translateToOrigin p = p.map (fun c =>
      (c.1 - listMin (p.map (fun d => d.1)),
       c.2.1 - listMin (p.map (fun d => d.2.1)),
       c.2.2 - listMin (p.map (fun d => d.2.2)))) := rfl

theorem taxi_shift (mx my mz : Int) (c1 c2 : Coord) :
    taxi_distance (coordToList (c1.1 - mx, c1.2.1 - my, c1.2.2 - mz))
        (coordToList (c2.1 - mx, c2.2.1 - my, c2.2.2 - mz)) =
      taxi_distance (coordToList c1) (coordToList c2) := by
  rw [taxi_coord, taxi_coord]
  simp only [sub_sub_sub_cancel_right]

theorem graph_translate (p : List Coord) :
    polycube_to_graph (translateToOrigin p) = polycube_to_graph p := by
  rw [translate_shift, polycube_to_graph, polycube_to_graph, List.map_map]
  refine List.map_congr_left ?_
  intro c1 _
  simp only [Function.comp]
  rw [List.map_map]
  refine List.map_congr_left ?_
  intro c2 _
  simp only [Function.comp]
  rw [taxi_shift]

theorem num_regions_translate (p : List Coord) :
    num_regions (translateToOrigin p) = num_regions p := by
  rw [num_regions, num_regions, graph_translate]

theorem translate_normalized (p : List Coord) (hp : p ≠ []) :
    normalized (translateToOrigin p) := by
  intro i
  fin_cases i
  · refine listMin_eq_of ?_ ?_
    · obtain ⟨c0, hc0, hc0v⟩ := List.mem_map.1 (listMin_mem (by simp [hp] :
        p.map (fun d => d.1) ≠ []))
      rw [translate_shift]
      refine List.mem_map.2 ⟨(c0.1 - listMin (p.map (fun d => d.1)),
        c0.2.1 - listMin (p.map (fun d => d.2.1)),
        c0.2.2 - listMin (p.map (fun d => d.2.2))), List.mem_map.2 ⟨c0, hc0, rfl⟩, ?_⟩
      show c0.1 - listMin (p.map (fun d => d.1)) = 0
      rw [hc0v]
      exact sub_self _
    · intro x hx
      rw [translate_shift, List.map_map] at hx
      obtain ⟨c, hc, rfl⟩ := List.mem_map.1 hx
      have hle : listMin (p.map (fun d => d.1)) ≤ c.1 :=
        listMin_le (List.mem_map_of_mem (fun d : Coord => d.1) hc)
      show 0 ≤ c.1 - listMin (p.map (fun d => d.1))
      omega
  · refine listMin_eq_of ?_ ?_
    · obtain ⟨c0, hc0, hc0v⟩ := List.mem_map.1 (listMin_mem (by simp [hp] :
        p.map (fun d => d.2.1) ≠ []))
      rw [translate_shift]
      refine List.mem_map.2 ⟨(c0.1 - listMin (p.map (fun d => d.1)),
        c0.2.1 - listMin (p.map (fun d => d.2.1)),
        c0.2.2 - listMin (p.map (fun d => d.2.2))), List.mem_map.2 ⟨c0, hc0, rfl⟩, ?_⟩
      show c0.2.1 - listMin (p.map (fun d => d.2.1)) = 0
      rw [hc0v]
      exact sub_self _
    · intro x hx
      rw [translate_shift, List.map_map] at hx
      obtain ⟨c, hc, rfl⟩ := List.mem_map.1 hx
      have hle : listMin (p.map (fun d => d.2.1)) ≤ c.2.1 :=
        listMin_le (List.mem_map_of_mem (fun d : Coord => d.2.1) hc)
      show 0 ≤ c.2.1 - listMin (p.map (fun d => d.2.1))
      omega
  · refine listMin_eq_of ?_ ?_
    · obtain ⟨c0, hc0, hc0v⟩ := List.mem_map.1 (listMin_mem (by simp [hp] :
        p.map (fun d => d.2.2) ≠ []))
      rw [translate_shift]
      refine List.mem_map.2 ⟨(c0.1 - listMin (p.map (fun d => d.1)),
        c0.2.1 - listMin (p.map (fun d => d.2.1)),
        c0.2.2 - listMin (p.map (fun d => d.2.2))), List.mem_map.2 ⟨c0, hc0, rfl⟩, ?_⟩
      show c0.2.2 - listMin (p.map (fun d => d.2.2)) = 0
      rw [hc0v]
      exact sub_self _
    · intro x hx
      rw [translate_shift, List.map_map] at hx
      obtain ⟨c, hc, rfl⟩ := List.mem_map.1 hx
      have hle : listMin (p.map (fun d => d.2.2)) ≤ c.2.2 :=
        listMin_le (List.mem_map_of_mem (fun d : Coord => d.2.2) hc)
      show 0 ≤ c.2.2 - listMin (p.map (fun d => d.2.2))
      omega

theorem translate_nodup {p : List Coord} (h : p.Nodup) : (translateToOrigin p).Nodup := by
  rw [translate_shift]
  refine List.Nodup.map ?_ h
  intro a b hab
  simp only [Prod.mk.injEq] at hab
  obtain ⟨x1, y1, z1⟩ := a
  obtain ⟨x2, y2, z2⟩ := b
  simp only at hab
  have := hab.1
  have := hab.2.1
  have := hab.2.2
  simp only [Prod.mk.injEq]
  omega

/-- Every accepted catalog entry satisfies the claimed per-element
invariants. -/
theorem canonOf_props (k r : Nat) (hr : r < binom 125 k) (hc : connectedCandidate k r) :
    (canonOf k r).length = k ∧ (canonOf k r).Nodup ∧
      num_regions (canonOf k r) = 1 ∧ normalized (canonOf k r) := by
  obtain ⟨hlen, hmem, hpw, _⟩ := unrankAux_spec k r 125 hr
  have hlen' : (unrank_kSubset r k 125).length = k := hlen
  have hmem' : ∀ y ∈ unrank_kSubset r k 125, y < 125 := hmem
  have hpw' : List.Pairwise (· > ·) (unrank_kSubset r k 125) := hpw
  have hclen : (candidateOf k r).length = k := by
    rw [candidateOf, List.length_map, hlen']
  have hcnodup : (candidateOf k r).Nodup := by
    rw [candidateOf]
    refine List.Nodup.map_on ?_ (sortedGT_nodup hpw')
    intro x hx y hy hxy
    exact decode_inj x (List.mem_range.2 (hmem' x hx)) y (List.mem_range.2 (hmem' y hy)) hxy
  have hne : candidateOf k r ≠ [] := connected_candidate_nonempty hc
  refine ⟨?_, ?_, ?_, ?_⟩
  · rw [canonOf, translate_shift, List.length_map, hclen]
  · rw [canonOf]; exact translate_nodup hcnodup
  · rw [canonOf, num_regions_translate]; exact hc
  · rw [canonOf]; exact translate_normalized _ hne

theorem canonOf_nonempty {k r : Nat} (hc : connectedCandidate k r) : canonOf k r ≠ [] := by
  rw [canonOf, translate_shift]
  intro h
  exact connected_candidate_nonempty hc (List.map_eq_nil.1 h)

/-- One driver step preserves the loop invariant. -/
theorem stepFn_preserves (k t : Nat) (acc : List (List Coord)) (h : DriverInv k t acc) :
    DriverInv k (t + 1) (stepFn k acc t) := by
  obtain ⟨rs, hpw, hacc, hbound, hpair, hskip⟩ := h
  rw [stepFn]
  by_cases hc : num_regions (candidateOf k t) ≠ 1
  · rw [if_pos hc]
    refine ⟨rs, hpw, hacc, fun r hr => ⟨by have := (hbound r hr).1; omega, (hbound r hr).2⟩,
      hpair, ?_⟩
    intro r hrt hrn hconn
    rcases Nat.lt_succ_iff_lt_or_eq.1 hrt with h' | rfl
    · exact hskip r h' hrn hconn
    · exact absurd hconn hc
  · rw [if_neg hc]
    push_neg at hc
    have hconn_t : connectedCandidate k t := hc
    by_cases hm : (acc.any fun added =>
        decide (check_poly_isomorphism added (canonOf k t) = some true)) = true
    · rw [if_pos hm]
      refine ⟨rs, hpw, hacc, fun r hr => ⟨by have := (hbound r hr).1; omega, (hbound r hr).2⟩,
        hpair, ?_⟩
      intro r hrt hrn hconn
      rcases Nat.lt_succ_iff_lt_or_eq.1 hrt with h' | rfl
      · exact hskip r h' hrn hconn
      · obtain ⟨a, ha, hax⟩ := List.any_eq_true.1 hm
        rw [hacc] at ha
        obtain ⟨r', hr', rfl⟩ := List.mem_map.1 ha
        exact ⟨r', hr', (hbound r' hr').1, of_decide_eq_true hax⟩
    · rw [if_neg hm]
      have hnomatch : ∀ r' ∈ rs,
          check_poly_isomorphism (canonOf k r') (canonOf k t) = some false := by
        intro r' hr'
        have hnot : ¬(check_poly_isomorphism (canonOf k r') (canonOf k t) = some true) := by
          intro habs
          refine hm (List.any_eq_true.2 ⟨canonOf k r', ?_, decide_eq_true habs⟩)
          rw [hacc]
          exact List.mem_map_of_mem _ hr'
        rw [check_poly_some_core _ _ (canonOf_nonempty hconn_t)] at hnot ⊢
        cases hcore : check_poly_iso_core (canonOf k r') (canonOf k t)
        · rfl
        · exact absurd (by rw [hcore]) hnot
      refine ⟨rs ++ [t], ?_, ?_, ?_, ?_, ?_⟩
      · rw [List.pairwise_append]
        exact ⟨hpw, List.pairwise_singleton _ _,
          fun a ha b hb => by rw [List.mem_singleton.1 hb]; exact (hbound a ha).1⟩
      · rw [List.map_append, ← hacc]; rfl
      · intro r hr
        rcases List.mem_append.1 hr with h' | h'
        · exact ⟨by have := (hbound r h').1; omega, (hbound r h').2⟩
        · rw [List.mem_singleton.1 h']
          exact ⟨Nat.lt_succ_self t, hconn_t⟩
      · rw [List.pairwise_append]
        exact ⟨hpair, List.pairwise_singleton _ _,
          fun a ha b hb => by rw [List.mem_singleton.1 hb]; exact hnomatch a ha⟩
      · intro r hrt hrn hconn
        rcases Nat.lt_succ_iff_lt_or_eq.1 hrt with h' | rfl
        · have hrn' : r ∉ rs := fun hmem => hrn (List.mem_append_left _ hmem)
          obtain ⟨r', hr', hlt, hiso⟩ := hskip r h' hrn' hconn
          exact ⟨r', List.mem_append_left _ hr', hlt, hiso⟩
        · exact absurd (List.mem_append_right rs (List.mem_singleton_self r)) hrn

theorem foldl_stepFn_inv (k : Nat) :
    ∀ (m t : Nat) (acc : List (List Coord)), DriverInv k t acc →
      DriverInv k (t + m) ((List.range' t m).foldl (stepFn k) acc) := by
  intro m
  induction m with
  | zero => intro t acc h; exact h
  | succ m ih =>
    intro t acc h
    rw [List.range'_succ, List.foldl_cons]
    have := ih (t + 1) (stepFn k acc t) (stepFn_preserves k t acc h)
    have harith : t + 1 + m = t + (m + 1) := by omega
    rw [harith] at this
    exact this

/-- Claim C4: every element of `get_polycubes_of_size k` has exactly `k`
distinct coordinates, a single connected component, per-axis minimum 0
(`normalized`), no two distinct catalog entries are isomorphic under the
planar test (in either order), and the catalog is exactly the sequence of
translated candidates of an increasing list of accepted ranks — each
accepted first in its class, every skipped connected rank having matched an
earlier-accepted shape. -/
theorem get_polycubes_invariants (k : Nat) :
    (∀ pc ∈ get_polycubes_of_size k,
      pc.length = k ∧ pc.Nodup ∧ num_regions pc = 1 ∧ normalized pc) ∧
    (get_polycubes_of_size k).Pairwise (fun a b =>
      check_poly_isomorphism a b = some false ∧ check_poly_isomorphism b a = some false) ∧
    (∃ rs : List Nat, rs.Pairwise (· < ·) ∧
      get_polycubes_of_size k = rs.map (canonOf k) ∧
      (∀ r ∈ rs, r < binom 125 k ∧ connectedCandidate k r) ∧
      (∀ r, r < binom 125 k → r ∉ rs → connectedCandidate k r →
        ∃ r' ∈ rs, r' < r ∧
          check_poly_isomorphism (canonOf k r') (canonOf k r) = some true)) := by
  have hinv0 : DriverInv k 0 [] :=
    ⟨[], List.Pairwise.nil, rfl, by simp, List.Pairwise.nil, by omega⟩
  have hinv := foldl_stepFn_inv k (binom 125 k) 0 [] hinv0
  rw [Nat.zero_add] at hinv
  have hout : get_polycubes_of_size k =
      (List.range' 0 (binom 125 k)).foldl (stepFn k) [] := by
    rw [get_polycubes_of_size, List.range_eq_range']
  obtain ⟨rs, hpw, hacc, hbound, hpair, hskip⟩ := hinv
  rw [← hout] at hacc
  refine ⟨?_, ?_, rs, hpw, hacc, hbound, hskip⟩
  · intro pc hpc
    rw [hacc] at hpc
    obtain ⟨r, hr, rfl⟩ := List.mem_map.1 hpc
    exact canonOf_props k r (hbound r hr).1 (hbound r hr).2
  · rw [hacc, List.pairwise_map]
    refine hpair.imp_of_mem ?_
    intro r1 r2 hr1 hr2 hfalse
    refine ⟨hfalse, ?_⟩
    have hn1 : canonOf k r1 ≠ [] := canonOf_nonempty (hbound r1 hr1).2
    have hn2 : canonOf k r2 ≠ [] := canonOf_nonempty (hbound r2 hr2).2
    have hnorm1 : normalized (canonOf k r1) :=
      (canonOf_props k r1 (hbound r1 hr1).1 (hbound r1 hr1).2).2.2.2
    rw [check_poly_some_core _ _ hn1]
    cases hcore : check_poly_iso_core (canonOf k r2) (canonOf k r1)
    · rfl
    · exfalso
      have h21 : check_poly_isomorphism (canonOf k r2) (canonOf k r1) = some true := by
        rw [check_poly_some_core _ _ hn1, hcore]
      have h12 := check_poly_symm (canonOf k r2) (canonOf k r1) hn2 hn1 hnorm1 h21
      rw [hfalse] at h12
      exact absurd (Option.some_injective _ h12) (by decide)

/-! ### Spanning-tree brute force: shared structure (claims C6, C9) -/

theorem foldl_filter_map {α β : Type} (f : α → β) (p : β → Bool) :
    ∀ (l : List α) (acc : List β),
      l.foldl (fun a x => if p (f x) then a ++ [f x] else a) acc =
        acc ++ (l.map f).filter p := by
  intro l
  induction l with
  | nil => intro acc; simp
  | cons x t ih =>
    intro acc
    rw [List.foldl_cons, List.map_cons, List.filter_cons]
    by_cases hp : p (f x) = true
    · rw [if_pos hp, if_pos hp, ih, List.append_assoc]
      rfl
    · rw [if_neg hp, if_neg hp, ih]

/-- The brute-force search is exactly: build the edge subset of every rank
and keep those passing the tree test. -/
theorem brute_force_eq_filter (n : Nat) (E : List (Nat × Nat)) :
    brute_force_trees n E =
      ((List.range (binom E.length (n - 1))).map (fun i =>
        (unrank_kSubset i (n - 1) E.length).reverse.map
          (fun j => E.getD (if j = 0 then E.length - 1 else j - 1) (0, 0)))).filter
        (fun t => checkTree t n) := by
  rw [brute_force_trees]
  have h := foldl_filter_map (fun i => (unrank_kSubset i (n - 1) E.length).reverse.map
      (fun j => E.getD (if j = 0 then E.length - 1 else j - 1) (0, 0)))
    (fun t => checkTree t n) (List.range (binom E.length (n - 1))) []
  rw [List.nil_append] at h
  exact h

theorem unrank_toFinset_inj (κ n : Nat) {r1 r2 : Nat} (h1 : r1 < binom n κ)
    (h2 : r2 < binom n κ)
    (hst : (unrank_kSubset r1 κ n).toFinset = (unrank_kSubset r2 κ n).toFinset) :
    r1 = r2 := by
  obtain ⟨_, _, hp1, hr1⟩ := unrankAux_spec κ r1 n h1
  obtain ⟨_, _, hp2, hr2⟩ := unrankAux_spec κ r2 n h2
  have heq : unrank_kSubset r1 κ n = unrank_kSubset r2 κ n :=
    sortedGT_toFinset_inj hp1 hp2 hst
  have heq' : rankOf (unrank_kSubset r1 κ n) = rankOf (unrank_kSubset r2 κ n) := by
    rw [heq]
  rw [unrank_kSubset] at heq'
  rw [unrank_kSubset] at heq'
  rw [hr1, hr2] at heq'
  exact heq'

theorem unrank_surj (κ n : Nat) (s : Finset Nat) (hcard : s.card = κ)
    (hmem : ∀ y ∈ s, y < n) :
    ∃ r, r < binom n κ ∧ (unrank_kSubset r κ n).toFinset = s := by
  obtain ⟨T, hTpw, hTs, hTlen, hTmem⟩ := finset_sortedGT s
  have hTbound : ∀ y ∈ T, y < n := fun y hy => hmem y (hTmem y hy)
  have hrank : rankOf T < binom n T.length := rankOf_lt T n hTpw hTbound
  have hlen : T.length = κ := by rw [hTlen, hcard]
  have hback : unrank_kSubset (rankOf T) κ n = T := by
    rw [unrank_kSubset, ← hlen]
    exact unrankAux_rankOf T n hTpw hTbound
  exact ⟨rankOf T, by rw [← hlen]; exact hrank, by rw [hback, hTs]⟩

theorem pairwise_lt_range_reverse (k : Nat) :
    List.Pairwise (· > ·) (List.range k).reverse := by
  rw [List.pairwise_reverse]
  exact List.pairwise_lt_range k

theorem rankOf_reverse_range : ∀ k : Nat, rankOf (List.range k).reverse = 0 := by
  intro k
  induction k with
  | zero => rfl
  | succ k ih =>
    rw [List.range_succ, List.reverse_append]
    simp only [List.reverse_cons, List.reverse_nil, List.nil_append, List.singleton_append]
    rw [rankOf, List.length_reverse, List.length_range, ih]
    rw [binom_eq_choose, Nat.choose_eq_zero_of_lt (by omega)]

/-- The rank-0 subset is `{k-1, ..., 1, 0}`. -/
theorem unrank_zero_eq (k : Nat) : unrank_kSubset 0 k k = (List.range k).reverse := by
  have h := unrankAux_rankOf ((List.range k).reverse) k (pairwise_lt_range_reverse k)
    (by intro y hy; rw [List.mem_reverse, List.mem_range] at hy; exact hy)
  rw [rankOf_reverse_range, List.length_reverse, List.length_range] at h
  exact h

theorem foldl_range'_inv {β : Type} (f : β → Nat → β) (Q : Nat → β → Prop)
    (hstep : ∀ t acc, Q t acc → Q (t + 1) (f acc t)) :
    ∀ (m t : Nat) (acc : β), Q t acc → Q (t + m) ((List.range' t m).foldl f acc) := by
  intro m
  induction m with
  | zero => intro t acc h; exact h
  | succ m ih =>
    intro t acc h
    rw [List.range'_succ, List.foldl_cons]
    have := ih (t + 1) (f acc t) (hstep t acc h)
    have harith : t + 1 + m = t + (m + 1) := by omega
    rw [harith] at this
    exact this

theorem getD_map_range {α : Type} (f : Nat → α) (d : α) {i n : Nat} (h : i < n) :
    ((List.range n).map f).getD i d = f i := by
  have hlen : i < ((List.range n).map f).length := by simp [h]
  rw [List.getD_eq_getElem _ _ hlen, List.getElem_map, List.getElem_range]

theorem path_entry (m i j : Nat) :
    ((pathEdgeList m).any fun e => (e.1 == i && e.2 == j) || (e.1 == j && e.2 == i)) =
      decide ((j = i + 1 ∧ j < m) ∨ (i = j + 1 ∧ i < m)) := by
  apply Bool.eq_iff_iff.mpr
  rw [List.any_eq_true, decide_eq_true_eq]
  constructor
  · rintro ⟨e, he, hme⟩
    rw [pathEdgeList] at he
    obtain ⟨idx, hidx, rfl⟩ := List.mem_map.1 he
    rw [List.mem_range] at hidx
    simp only [Bool.or_eq_true, Bool.and_eq_true, beq_iff_eq] at hme
    omega
  · intro h
    rcases h with ⟨hj, hjm⟩ | ⟨hi, him⟩
    · refine ⟨(i, i + 1), ?_, ?_⟩
      · rw [pathEdgeList]
        exact List.mem_map.2 ⟨i, List.mem_range.2 (by omega), rfl⟩
      · simp [hj]
    · refine ⟨(j, j + 1), ?_, ?_⟩
      · rw [pathEdgeList]
        exact List.mem_map.2 ⟨j, List.mem_range.2 (by omega), rfl⟩
      · simp [hi]

theorem path_adjOf (m i j : Nat) (hi : i < m) (hj : j < m) :
    adjOf (adjFromEdges (pathEdgeList m) m) i j =
      decide ((j = i + 1 ∧ j < m) ∨ (i = j + 1 ∧ i < m)) := by
  rw [adjOf, adjFromEdges, getD_map_range _ _ hi, getD_map_range _ _ hj]
  exact path_entry m i j

theorem filter_beq_range (v : Nat) :
    ∀ m : Nat, (List.range m).filter (fun j => j == v) = if v < m then [v] else [] := by
  intro m
  induction m with
  | zero => simp
  | succ m ih =>
    rw [List.range_succ, List.filter_append, ih]
    by_cases hv : v = m
    · subst hv
      rw [if_neg (lt_irrefl v), if_pos (Nat.lt_succ_self v)]
      simp
    · by_cases hvm : v < m
      · rw [if_pos hvm, if_pos (by omega)]
        have : (m == v) = false := by simp [Ne.symm hv]
        simp [this]
      · rw [if_neg hvm, if_neg (by omega)]
        have : (m == v) = false := by simp [Ne.symm hv]
        simp [this]

theorem countUndirected_path (m : Nat) :
    countUndirected (adjFromEdges (pathEdgeList m) m) = m - 1 := by
  rw [countUndirected]
  have hlen : (adjFromEdges (pathEdgeList m) m).length = m := by
    rw [adjFromEdges]; simp
  rw [hlen]
  have hrow : ∀ i ∈ List.range m,
      ((List.range m).filter
        (fun j => decide (i ≤ j) && adjOf (adjFromEdges (pathEdgeList m) m) i j)).length =
      if i + 1 < m then 1 else 0 := by
    intro i hi
    rw [List.mem_range] at hi
    have hcg : (List.range m).filter
        (fun j => decide (i ≤ j) && adjOf (adjFromEdges (pathEdgeList m) m) i j) =
        (List.range m).filter (fun j => j == i + 1) := by
      refine List.filter_congr ?_
      intro j hj
      rw [List.mem_range] at hj
      rw [path_adjOf m i j hi hj]
      apply Bool.eq_iff_iff.mpr
      simp only [Bool.and_eq_true, decide_eq_true_eq, beq_iff_eq]
      omega
    rw [hcg, filter_beq_range]
    by_cases h1 : i + 1 < m
    · rw [if_pos h1, if_pos h1]; rfl
    · rw [if_neg h1, if_neg h1]; rfl
  rw [List.map_congr_left hrow]
  cases m with
  | zero => rfl
  | succ mm =>
    rw [List.range_succ, List.map_append, List.sum_append]
    have h2 : (List.map (fun i => if i + 1 < mm + 1 then 1 else 0) [mm]).sum = 0 := by
      simp
    rw [h2]
    have h1 : List.map (fun i => if i + 1 < mm + 1 then 1 else 0) (List.range mm) =
        List.map (fun _ => 1) (List.range mm) := by
      refine List.map_congr_left ?_
      intro i hi
      rw [List.mem_range] at hi
      rw [if_pos (by omega)]
    rw [h1]
    have h3 : ∀ k : Nat, (List.map (fun _ => 1) (List.range k)).sum = k := by
      intro k
      induction k with
      | zero => rfl
      | succ k ihk =>
        rw [List.range_succ, List.map_append, List.sum_append, ihk]
        simp
    rw [h3]
    omega

theorem filterMap_if {α β : Type} (p : α → Bool) (g : α → β) :
    ∀ l : List α,
      l.filterMap (fun a => if p a then some (g a) else none) = (l.filter p).map g := by
  intro l
  induction l with
  | nil => rfl
  | cons x t ih =>
    rw [List.filterMap_cons, List.filter_cons]
    by_cases hp : p x = true
    · rw [if_pos hp, if_pos hp, List.map_cons, ih]
    · rw [if_neg hp, if_neg hp, ih]

theorem zip_range_map {α : Type} (f : Nat → α) (m : Nat) :
    (List.range m).zip ((List.range m).map f) = (List.range m).map (fun i => (i, f i)) := by
  have h := List.zip_map' id f (List.range m)
  rw [List.map_id] at h
  exact h

theorem matrixEdges_range_map (m : Nat) (f : Nat → Nat → Bool) :
    matrixEdges ((List.range m).map (fun i => (List.range m).map (f i))) =
      ((List.range m).map (fun i =>
        ((List.range m).filter (f i)).map (fun j => (i, j)))).flatten := by
  rw [matrixEdges]
  congr 1
  have hA : ((List.range m).map (fun i => (List.range m).map (f i))).enum
      = (List.range m).map (fun i => (i, (List.range m).map (f i))) := by
    rw [List.enum_eq_zip_range]
    simp only [List.length_map, List.length_range]
    exact zip_range_map _ m
  rw [hA, List.map_map]
  refine List.map_congr_left ?_
  intro i _
  simp only [Function.comp]
  have hrow : ((List.range m).map (f i)).enum = (List.range m).map (fun j => (j, f i j)) := by
    rw [List.enum_eq_zip_range]
    simp only [List.length_map, List.length_range]
    exact zip_range_map _ m
  rw [hrow, List.filterMap_map]
  have hcomp : ((fun q : Nat × Bool => if q.2 then some (i, q.1) else none) ∘
      (fun j => (j, f i j))) = fun j => if f i j then some (i, j) else none := rfl
  rw [hcomp, filterMap_if]

theorem ufFind_threshold (parent : List Nat) (m thr : Nat)
    (hQ : ∀ j, j < m → parent.getD j j = if j ≤ thr then 0 else j)
    {j : Nat} (hj : j < m) {fuel : Nat} (hf : 2 ≤ fuel) :
    ufFind parent fuel j = if j ≤ thr then 0 else j := by
  obtain ⟨f2, rfl⟩ : ∃ f2, fuel = f2 + 2 := ⟨fuel - 2, by omega⟩
  by_cases hjt : j ≤ thr
  · rw [if_pos hjt]
    have hgd : parent.getD j j = 0 := by rw [hQ j hj, if_pos hjt]
    by_cases hj0 : j = 0
    · subst hj0
      rw [ufFind, if_pos hgd]
    · rw [ufFind, if_neg (by rw [hgd]; exact fun h => hj0 h.symm), hgd, ufFind]
      have h0 : parent.getD 0 0 = 0 := by
        rw [hQ 0 (by omega), if_pos (Nat.zero_le thr)]
      rw [if_pos h0]
  · rw [if_neg hjt]
    have hgd : parent.getD j j = j := by rw [hQ j hj, if_neg hjt]
    rw [ufFind, if_pos hgd]

theorem ufUnion_noop (parent : List Nat) (m thr : Nat) (hlen : parent.length = m)
    (hQ : ∀ j, j < m → parent.getD j j = if j ≤ thr then 0 else j)
    (hm : 2 ≤ m) (a b : Nat) (ha : a < m) (hb : b < m)
    (hat : a ≤ thr) (hbt : b ≤ thr) :
    ufUnion parent (a, b) = parent := by
  rw [ufUnion]
  have hfa : ufFind parent parent.length a = 0 := by
    rw [ufFind_threshold parent m thr hQ ha (by omega), if_pos hat]
  have hfb : ufFind parent parent.length b = 0 := by
    rw [ufFind_threshold parent m thr hQ hb (by omega), if_pos hbt]
  rw [if_pos (by rw [hfa, hfb])]

theorem ufUnion_link (parent : List Nat) (m thr : Nat) (hlen : parent.length = m)
    (hQ : ∀ j, j < m → parent.getD j j = if j ≤ thr then 0 else j)
    (hm : 2 ≤ m) (a b : Nat) (ha : a < m) (hb : b < m)
    (hat : a ≤ thr) (hbt : thr < b) :
    ufUnion parent (a, b) = parent.set b 0 := by
  rw [ufUnion]
  have hfa : ufFind parent parent.length a = 0 := by
    rw [ufFind_threshold parent m thr hQ ha (by omega), if_pos hat]
  have hfb : ufFind parent parent.length b = b := by
    rw [ufFind_threshold parent m thr hQ hb (by omega), if_neg (by omega)]
  rw [if_neg (by rw [hfa, hfb]; omega), hfa, hfb]

theorem getD_set_state (parent : List Nat) (b v j : Nat) (hb : b < parent.length) :
    (parent.set b v).getD j j = if j = b then v else parent.getD j j := by
  by_cases hjb : j = b
  · subst hjb
    rw [if_pos rfl, List.getD_eq_getElem?_getD, List.getElem?_set_self hb]
    rfl
  · rw [if_neg hjb, List.getD_eq_getElem?_getD, List.getElem?_set_ne (fun h => hjb h.symm),
      ← List.getD_eq_getElem?_getD]

theorem filter_or_two (a b : Nat) (hab : a < b) :
    ∀ m : Nat, (List.range m).filter (fun j => j == a || j == b) =
      (if a < m then [a] else []) ++ (if b < m then [b] else []) := by
  intro m
  induction m with
  | zero => simp
  | succ m ih =>
    rw [List.range_succ, List.filter_append, ih]
    have hfm : List.filter (fun j => j == a || j == b) [m] =
        if m = a ∨ m = b then [m] else [] := by
      by_cases h : m = a ∨ m = b
      · rw [if_pos h]
        rcases h with rfl | rfl <;> simp
      · rw [if_neg h]
        push_neg at h
        simp [h.1, h.2]
    rw [hfm]
    rcases Nat.lt_trichotomy m a with h1 | h1 | h1
    · rw [if_neg (show ¬a < m by omega), if_neg (show ¬b < m by omega),
        if_neg (show ¬a < m + 1 by omega), if_neg (show ¬b < m + 1 by omega),
        if_neg (show ¬(m = a ∨ m = b) by omega)]
      simp
    · rw [if_neg (show ¬a < m by omega), if_neg (show ¬b < m by omega),
        if_pos (show a < m + 1 by omega), if_neg (show ¬b < m + 1 by omega),
        if_pos (show m = a ∨ m = b from Or.inl h1)]
      simp [h1]
    · rcases Nat.lt_trichotomy m b with h2 | h2 | h2
      · rw [if_pos (show a < m by omega), if_neg (show ¬b < m by omega),
          if_pos (show a < m + 1 by omega), if_neg (show ¬b < m + 1 by omega),
          if_neg (show ¬(m = a ∨ m = b) by omega)]
        simp
      · rw [if_pos (show a < m by omega), if_neg (show ¬b < m by omega),
          if_pos (show a < m + 1 by omega), if_pos (show b < m + 1 by omega),
          if_pos (show m = a ∨ m = b from Or.inr h2)]
        rw [h2]
        simp
      · rw [if_pos (show a < m by omega), if_pos (show b < m by omega),
          if_pos (show a < m + 1 by omega), if_pos (show b < m + 1 by omega),
          if_neg (show ¬(m = a ∨ m = b) by omega)]
        simp

theorem path_row_filter (m i : Nat) (hm : 2 ≤ m) (hi : i < m) :
    (List.range m).filter
        (fun j => decide ((j = i + 1 ∧ j < m) ∨ (i = j + 1 ∧ i < m))) =
      (if 1 ≤ i then [i - 1] else []) ++ (if i + 1 < m then [i + 1] else []) := by
  by_cases hi0 : i = 0
  · subst hi0
    have hcg : (List.range m).filter
        (fun j => decide ((j = 0 + 1 ∧ j < m) ∨ (0 = j + 1 ∧ 0 < m))) =
        (List.range m).filter (fun j => j == 1) := by
      refine List.filter_congr ?_
      intro j hj
      rw [List.mem_range] at hj
      apply Bool.eq_iff_iff.mpr
      simp only [decide_eq_true_eq, beq_iff_eq]
      omega
    rw [hcg, filter_beq_range, if_pos (show (1 : Nat) < m by omega),
      if_neg (show ¬(1 ≤ 0) by omega)]
    rfl
  · have hcg : (List.range m).filter
        (fun j => decide ((j = i + 1 ∧ j < m) ∨ (i = j + 1 ∧ i < m))) =
        (List.range m).filter (fun j => j == i - 1 || j == i + 1) := by
      refine List.filter_congr ?_
      intro j hj
      rw [List.mem_range] at hj
      apply Bool.eq_iff_iff.mpr
      simp only [decide_eq_true_eq, Bool.or_eq_true, beq_iff_eq]
      omega
    rw [hcg, filter_or_two (i - 1) (i + 1) (by omega) m]
    rw [if_pos (by omega : i - 1 < m), if_pos (by omega : 1 ≤ i)]

theorem path_row_step (m : Nat) (hm : 2 ≤ m) (i : Nat) (parent : List Nat)
    (hlen : parent.length = m)
    (hQ : ∀ j, j < m → parent.getD j j = if j ≤ i then 0 else j) :
    ((((List.range m).filter
        (fun j => decide ((j = i + 1 ∧ j < m) ∨ (i = j + 1 ∧ i < m)))).map
      (fun j => (i, j))).foldl ufUnion parent).length = m ∧
    ∀ j, j < m →
      ((((List.range m).filter
          (fun j => decide ((j = i + 1 ∧ j < m) ∨ (i = j + 1 ∧ i < m)))).map
        (fun j => (i, j))).foldl ufUnion parent).getD j j = if j ≤ i + 1 then 0 else j := by
  by_cases him : i < m
  · rw [path_row_filter m i hm him]
    by_cases hi0 : i = 0
    · subst hi0
      rw [if_neg (by omega), if_pos (by omega : 0 + 1 < m)]
      simp only [List.nil_append, List.map_cons, List.map_nil, List.foldl_cons, List.foldl_nil]
      rw [ufUnion_link parent m 0 hlen hQ hm 0 1 (by omega) (by omega) (le_refl 0) (by omega)]
      constructor
      · rw [List.length_set, hlen]
      · intro j hj
        rw [getD_set_state parent 1 0 j (by omega)]
        by_cases hj1 : j = 1
        · subst hj1
          rw [if_pos rfl, if_pos (by omega)]
        · rw [if_neg hj1, hQ j hj]
          by_cases hj0 : j ≤ 0
          · rw [if_pos hj0, if_pos (by omega)]
          · rw [if_neg hj0, if_neg (by omega)]
    · rw [if_pos (by omega : 1 ≤ i)]
      by_cases hlast : i + 1 < m
      · rw [if_pos hlast]
        simp only [List.map_cons, List.map_nil, List.foldl_cons, List.foldl_nil,
          List.singleton_append, List.cons_append, List.nil_append]
        rw [ufUnion_noop parent m i hlen hQ hm i (i - 1) him (by omega) (le_refl i)
          (by omega)]
        rw [ufUnion_link parent m i hlen hQ hm i (i + 1) him hlast (le_refl i) (by omega)]
        constructor
        · rw [List.length_set, hlen]
        · intro j hj
          rw [getD_set_state parent (i + 1) 0 j (by omega)]
          by_cases hj1 : j = i + 1
          · subst hj1
            rw [if_pos rfl, if_pos (le_refl _)]
          · rw [if_neg hj1, hQ j hj]
            by_cases hj0 : j ≤ i
            · rw [if_pos hj0, if_pos (by omega)]
            · rw [if_neg hj0, if_neg (by omega)]
      · rw [if_neg hlast]
        simp only [List.map_cons, List.map_nil, List.foldl_cons, List.foldl_nil,
          List.append_nil]
        rw [ufUnion_noop parent m i hlen hQ hm i (i - 1) him (by omega) (le_refl i)
          (by omega)]
        refine ⟨hlen, ?_⟩
        intro j hj
        rw [hQ j hj]
        by_cases hj0 : j ≤ i
        · rw [if_pos hj0, if_pos (by omega)]
        · rw [if_neg hj0, if_neg (by omega)]
  · have hempty : (List.range m).filter
        (fun j => decide ((j = i + 1 ∧ j < m) ∨ (i = j + 1 ∧ i < m))) = [] := by
      rw [List.filter_eq_nil_iff]
      intro j hj
      rw [List.mem_range] at hj
      simp only [decide_eq_true_eq, not_or, not_and]
      omega
    rw [hempty]
    simp only [List.map_nil, List.foldl_nil]
    refine ⟨hlen, ?_⟩
    intro j hj
    rw [hQ j hj]
    by_cases hj0 : j ≤ i
    · rw [if_pos hj0, if_pos (by omega)]
    · rw [if_neg hj0, if_neg (by omega)]

theorem foldl_range_inv {β : Type} (f : β → Nat → β) (Q : Nat → β → Prop)
    (hstep : ∀ t acc, Q t acc → Q (t + 1) (f acc t)) (m : Nat) (acc : β) (h : Q 0 acc) :
    Q m ((List.range m).foldl f acc) := by
  rw [List.range_eq_range']
  have hh := foldl_range'_inv f Q hstep m 0 acc h
  rwa [Nat.zero_add] at hh

theorem path_uf_root (m : Nat) (hm : 2 ≤ m) :
    ∀ j, j < m →
      ((matrixEdges (adjFromEdges (pathEdgeList m) m)).foldl ufUnion
        (List.range m)).getD j j = 0 := by
  have hfun : ∀ i : Nat,
      (fun j => (pathEdgeList m).any fun e => (e.1 == i && e.2 == j) || (e.1 == j && e.2 == i)) =
      (fun j => decide ((j = i + 1 ∧ j < m) ∨ (i = j + 1 ∧ i < m))) :=
    fun i => funext (fun j => path_entry m i j)
  have hME : matrixEdges (adjFromEdges (pathEdgeList m) m) =
      ((List.range m).map (fun i =>
        ((List.range m).filter (fun j =>
          (pathEdgeList m).any fun e =>
            (e.1 == i && e.2 == j) || (e.1 == j && e.2 == i))).map
          (fun j => (i, j)))).flatten :=
    matrixEdges_range_map m _
  rw [hME, List.foldl_flatten, List.foldl_map]
  have hinv := foldl_range_inv
    (fun acc i => (((List.range m).filter (fun j =>
      (pathEdgeList m).any fun e =>
        (e.1 == i && e.2 == j) || (e.1 == j && e.2 == i))).map
      (fun j => (i, j))).foldl ufUnion acc)
    (fun t parent => parent.length = m ∧
      ∀ j, j < m → parent.getD j j = if j ≤ t then 0 else j)
    ?_ m (List.range m) ?_
  · intro j hj
    rw [hinv.2 j hj, if_pos (by omega)]
  · intro t acc hQ
    simp only
    rw [hfun t]
    exact path_row_step m hm t acc hQ.1 hQ.2
  · refine ⟨by simp, ?_⟩
    intro j hj
    rw [List.getD_eq_getElem _ _ (by simp [hj]), List.getElem_range]
    by_cases hj0 : j ≤ 0
    · rw [if_pos hj0]; omega
    · rw [if_neg hj0]

theorem countComponents_path (m : Nat) (hm : 2 ≤ m) :
    countComponents (adjFromEdges (pathEdgeList m) m) = 1 := by
  rw [countComponents]
  have hAlen : (adjFromEdges (pathEdgeList m) m).length = m := by
    rw [adjFromEdges]; simp
  rw [hAlen]
  have hroot := path_uf_root m hm
  have hcg : (List.range m).filter (fun i => decide
      (((matrixEdges (adjFromEdges (pathEdgeList m) m)).foldl ufUnion
        (List.range m)).getD i i = i)) =
      (List.range m).filter (fun i => i == 0) := by
    refine List.filter_congr ?_
    intro i hi
    rw [List.mem_range] at hi
    rw [hroot i hi]
    apply Bool.eq_iff_iff.mpr
    simp only [decide_eq_true_eq, beq_iff_eq]
    omega
  rw [hcg, filter_beq_range, if_pos (by omega : 0 < m)]
  rfl

theorem pathE_length (m : Nat) : (pathEdgeList m).length = m - 1 := by
  rw [pathEdgeList]; simp

theorem pathE_getD (m j : Nat) (hj : j < m - 1) :
    (pathEdgeList m).getD j (0, 0) = (j, j + 1) := by
  rw [pathEdgeList, getD_map_range _ _ hj]

theorem adjFromEdges_perm (E1 E2 : List (Nat × Nat)) (h : E1.Perm E2) (n : Nat) :
    adjFromEdges E1 n = adjFromEdges E2 n := by
  rw [adjFromEdges, adjFromEdges]
  refine List.map_congr_left ?_
  intro i _
  refine List.map_congr_left ?_
  intro j _
  apply Bool.eq_iff_iff.mpr
  rw [List.any_eq_true, List.any_eq_true]
  constructor
  · rintro ⟨e, he, hp⟩
    exact ⟨e, (List.Perm.mem_iff h).1 he, hp⟩
  · rintro ⟨e, he, hp⟩
    exact ⟨e, (List.Perm.mem_iff h).2 he, hp⟩

theorem checkTree_path (m : Nat) (hm : 2 ≤ m) : checkTree (pathEdgeList m) m = true := by
  rw [checkTree, countUndirected_path, countComponents_path m hm]
  simp

theorem path_edge_subset (m : Nat) (hm : 2 ≤ m) :
    (unrank_kSubset 0 (m - 1) (pathEdgeList m).length).reverse.map
      (fun j => (pathEdgeList m).getD
        (if j = 0 then (pathEdgeList m).length - 1 else j - 1) (0, 0)) =
      (m - 2, m - 1) :: (List.range (m - 2)).map (fun j => (j, j + 1)) := by
  rw [pathE_length, unrank_zero_eq, List.reverse_reverse]
  have hm1 : m - 1 = (m - 2) + 1 := by omega
  rw [hm1, List.range_succ_eq_map, List.map_cons, List.map_map]
  have hhead : (pathEdgeList m).getD (if 0 = 0 then m - 2 + 1 - 1 else 0 - 1) (0, 0) =
      (m - 2, m - 2 + 1) := by
    rw [if_pos rfl, Nat.add_sub_cancel, pathE_getD m (m - 2) (by omega)]
  rw [hhead]
  congr 1
  refine List.map_congr_left ?_
  intro j hj
  rw [List.mem_range] at hj
  simp only [Function.comp]
  rw [if_neg (Nat.succ_ne_zero j), Nat.succ_sub_one, pathE_getD m j (by omega)]

theorem path_subset_perm (m : Nat) (hm : 2 ≤ m) :
    ((m - 2, m - 1) :: (List.range (m - 2)).map (fun j => (j, j + 1))).Perm
      (pathEdgeList m) := by
  have hsplit : pathEdgeList m =
      (List.range (m - 2)).map (fun j => (j, j + 1)) ++ [(m - 2, m - 1)] := by
    rw [pathEdgeList]
    have hm1 : m - 1 = (m - 2) + 1 := by omega
    rw [hm1, List.range_succ, List.map_append]
    rfl
  rw [hsplit]
  have := @List.perm_append_comm (Nat × Nat) [(m - 2, m - 1)]
    ((List.range (m - 2)).map (fun j => (j, j + 1)))
  simpa using this

/-- Claim C6: on the canonical simple path with `m ≥ 2` nodes the brute-force
search returns exactly one spanning tree, whose edges are exactly the path's
own edges (the loop emits them rotated: last edge first); on the canonical
3-cycle it returns exactly 3 spanning trees with pairwise distinct edge
sets. -/
theorem brute_force_path_and_triangle :
    (∀ m, 2 ≤ m →
      (brute_force_trees m (pathEdgeList m)).length = 1 ∧
      ∀ t ∈ brute_force_trees m (pathEdgeList m), t.Perm (pathEdgeList m)) ∧
    ((brute_force_trees 3 triangleEdgeList).length = 3 ∧
      (brute_force_trees 3 triangleEdgeList).Pairwise
        (fun t1 t2 => t1.toFinset ≠ t2.toFinset)) := by
  constructor
  · intro m hm
    have hbin : binom (pathEdgeList m).length (m - 1) = 1 := by
      rw [pathE_length, binom_eq_choose, Nat.choose_self]
    have hsingle : brute_force_trees m (pathEdgeList m) =
        [(m - 2, m - 1) :: (List.range (m - 2)).map (fun j => (j, j + 1))] := by
      rw [brute_force_trees, hbin]
      show (if checkTree ((unrank_kSubset 0 (m - 1) (pathEdgeList m).length).reverse.map
          (fun j => (pathEdgeList m).getD
            (if j = 0 then (pathEdgeList m).length - 1 else j - 1) (0, 0))) m = true
        then [] ++ [(unrank_kSubset 0 (m - 1) (pathEdgeList m).length).reverse.map
          (fun j => (pathEdgeList m).getD
            (if j = 0 then (pathEdgeList m).length - 1 else j - 1) (0, 0))]
        else []) = _
      rw [path_edge_subset m hm]
      have hct : checkTree
          ((m - 2, m - 1) :: (List.range (m - 2)).map (fun j => (j, j + 1))) m = true := by
        rw [checkTree,
          adjFromEdges_perm _ _ (path_subset_perm m hm) m,
          countUndirected_path, countComponents_path m hm]
        simp
      rw [hct, if_pos rfl, List.nil_append]
    rw [hsingle]
    refine ⟨rfl, ?_⟩
    intro t ht
    rw [List.mem_singleton.1 ht]
    exact path_subset_perm m hm
  · exact ⟨by decide, by decide⟩

theorem shift_lt {m j : Nat} (hj : j < m) :
    (if j = 0 then m - 1 else j - 1) < m := by
  by_cases h : j = 0 <;> simp [h] <;> omega

theorem shift_inj {m j1 j2 : Nat} (h1 : j1 < m) (h2 : j2 < m)
    (heq : (if j1 = 0 then m - 1 else j1 - 1) = (if j2 = 0 then m - 1 else j2 - 1)) :
    j1 = j2 := by
  by_cases c1 : j1 = 0 <;> by_cases c2 : j2 = 0 <;> simp [c1, c2] at heq <;> omega

theorem getD_inj_of_nodup {E : List (Nat × Nat)} (hE : E.Nodup) {i1 i2 : Nat}
    (h1 : i1 < E.length) (h2 : i2 < E.length)
    (heq : E.getD i1 (0, 0) = E.getD i2 (0, 0)) : i1 = i2 := by
  rw [List.getD_eq_getElem _ _ h1, List.getD_eq_getElem _ _ h2] at heq
  exact (List.Nodup.getElem_inj_iff hE).1 heq

theorem getD_mem_of_lt {E : List (Nat × Nat)} {i : Nat} (h : i < E.length) :
    E.getD i (0, 0) ∈ E := by
  rw [List.getD_eq_getElem _ _ h]
  exact List.getElem_mem h

theorem image_injOn_subset {α β : Type} [DecidableEq β]
    (g : α → β) (P : α → Prop) (s t : Finset α)
    (hs : ∀ x ∈ s, P x) (ht : ∀ x ∈ t, P x)
    (hinj : ∀ x y, P x → P y → g x = g y → x = y)
    (h : s.image g ⊆ t.image g) : s ⊆ t := by
  intro x hx
  obtain ⟨y, hy, hgy⟩ := Finset.mem_image.1 (h (Finset.mem_image_of_mem g hx))
  exact hinj y x (ht y hy) (hs x hx) hgy ▸ hy

theorem edgeSubsetOf_toFinset (E : List (Nat × Nat)) (κ r : Nat) :
    (edgeSubsetOf E κ r).toFinset =
      (unrank_kSubset r κ E.length).toFinset.image
        (fun j => E.getD (if j = 0 then E.length - 1 else j - 1) (0, 0)) := by
  rw [edgeSubsetOf, list_toFinset_map, List.toFinset_reverse]

theorem unshift_lt {m i : Nat} (hi : i < m) :
    (if i = m - 1 then 0 else i + 1) < m := by
  by_cases h : i = m - 1 <;> simp [h] <;> omega

theorem shift_unshift {m i : Nat} (hi : i < m) :
    (if (if i = m - 1 then 0 else i + 1) = 0 then m - 1
      else (if i = m - 1 then 0 else i + 1) - 1) = i := by
  by_cases h : i = m - 1
  · simp [h]
  · rw [if_neg h, if_neg (Nat.succ_ne_zero i)]
    omega

theorem unshift_inj {m i1 i2 : Nat} (h1 : i1 < m) (h2 : i2 < m)
    (heq : (if i1 = m - 1 then 0 else i1 + 1) = (if i2 = m - 1 then 0 else i2 + 1)) :
    i1 = i2 := by
  by_cases c1 : i1 = m - 1 <;> by_cases c2 : i2 = m - 1 <;> simp [c1, c2] at heq <;> omega

/-- Claim C9: for `n ≥ 1` and a duplicate-free edge list `E` with
`n - 1 ≤ |E|`, the edge subsets the brute-force loop builds through the
Python access `E[j - 1]` (where `j = 0` selects the last edge by negative
indexing) are exactly the `(n-1)`-element subsets of `E`: every rank below
`C(|E|, n-1)` yields `n - 1` distinct edges of `E`, distinct ranks yield
distinct edge sets, every `(n-1)`-subset of `E` arises at some in-range
rank, and the returned list holds exactly the built subsets that pass the
spanning-tree test. -/
theorem brute_force_trees_subsets (n : Nat) (E : List (Nat × Nat))
    (hn : 1 ≤ n) (hE : E.Nodup) (hm : n - 1 ≤ E.length) :
    (∀ r, r < binom E.length (n - 1) →
      (edgeSubsetOf E (n - 1) r).length = n - 1 ∧
      (edgeSubsetOf E (n - 1) r).Nodup ∧
      ∀ e ∈ edgeSubsetOf E (n - 1) r, e ∈ E) ∧
    (∀ r1 r2, r1 < binom E.length (n - 1) → r2 < binom E.length (n - 1) →
      (edgeSubsetOf E (n - 1) r1).toFinset = (edgeSubsetOf E (n - 1) r2).toFinset →
      r1 = r2) ∧
    (∀ s : Finset (Nat × Nat), s.card = n - 1 → s ⊆ E.toFinset →
      ∃ r, r < binom E.length (n - 1) ∧ (edgeSubsetOf E (n - 1) r).toFinset = s) ∧
    (∀ t, t ∈ brute_force_trees n E ↔
      ((∃ r, r < binom E.length (n - 1) ∧ t = edgeSubsetOf E (n - 1) r) ∧
        checkTree t n = true)) := by
  have hUspec : ∀ r, r < binom E.length (n - 1) →
      (unrank_kSubset r (n - 1) E.length).length = n - 1 ∧
      (∀ y ∈ unrank_kSubset r (n - 1) E.length, y < E.length) ∧
      List.Pairwise (· > ·) (unrank_kSubset r (n - 1) E.length) ∧
      rankOf (unrank_kSubset r (n - 1) E.length) = r :=
    fun r hr => unrankAux_spec (n - 1) r E.length hr
  refine ⟨?_, ?_, ?_, ?_⟩
  · intro r hr
    obtain ⟨hlen, hmem, hpw, _⟩ := hUspec r hr
    refine ⟨?_, ?_, ?_⟩
    · rw [edgeSubsetOf, List.length_map, List.length_reverse, hlen]
    · rw [edgeSubsetOf]
      refine List.Nodup.map_on ?_ (List.nodup_reverse.2 (sortedGT_nodup hpw))
      intro x hx y hy hxy
      rw [List.mem_reverse] at hx hy
      exact shift_inj (hmem x hx) (hmem y hy)
        (getD_inj_of_nodup hE (shift_lt (hmem x hx)) (shift_lt (hmem y hy)) hxy)
    · intro e he
      rw [edgeSubsetOf, List.mem_map] at he
      obtain ⟨j, hj, hje⟩ := he
      rw [List.mem_reverse] at hj
      rw [← hje]
      exact getD_mem_of_lt (shift_lt (hmem j hj))
  · intro r1 r2 h1 h2 hset
    obtain ⟨_, hmem1, _, _⟩ := hUspec r1 h1
    obtain ⟨_, hmem2, _, _⟩ := hUspec r2 h2
    rw [edgeSubsetOf_toFinset, edgeSubsetOf_toFinset] at hset
    have hinj : ∀ x y : Nat, x < E.length → y < E.length →
        E.getD (if x = 0 then E.length - 1 else x - 1) (0, 0) =
          E.getD (if y = 0 then E.length - 1 else y - 1) (0, 0) → x = y :=
      fun x y hx hy hxy =>
        shift_inj hx hy (getD_inj_of_nodup hE (shift_lt hx) (shift_lt hy) hxy)
    have hmem1f : ∀ x ∈ (unrank_kSubset r1 (n - 1) E.length).toFinset, x < E.length :=
      fun x hx => hmem1 x (List.mem_toFinset.1 hx)
    have hmem2f : ∀ x ∈ (unrank_kSubset r2 (n - 1) E.length).toFinset, x < E.length :=
      fun x hx => hmem2 x (List.mem_toFinset.1 hx)
    refine unrank_toFinset_inj (n - 1) E.length h1 h2 (Finset.Subset.antisymm ?_ ?_)
    · refine image_injOn_subset _ (fun x => x < E.length) _ _ hmem1f hmem2f hinj ?_
      intro x hx
      rw [← hset]
      exact hx
    · refine image_injOn_subset _ (fun x => x < E.length) _ _ hmem2f hmem1f hinj ?_
      intro x hx
      rw [hset]
      exact hx
  · intro s hcard hsub
    have hex : ∀ e : Nat × Nat, ∃ i, e ∈ s → i < E.length ∧ E.getD i (0, 0) = e := by
      intro e
      by_cases he : e ∈ s
      · obtain ⟨i, hi, hie⟩ := List.getElem_of_mem (List.mem_toFinset.1 (hsub he))
        refine ⟨i, fun _ => ⟨hi, ?_⟩⟩
        rw [List.getD_eq_getElem _ _ hi, hie]
      · exact ⟨0, fun h => absurd h he⟩
    choose idx hidxAll using hex
    have hidx : ∀ e ∈ s, idx e < E.length := fun e he => (hidxAll e he).1
    have hidx_get : ∀ e ∈ s, E.getD (idx e) (0, 0) = e := fun e he => (hidxAll e he).2
    have hidx_inj : ∀ e1 ∈ s, ∀ e2 ∈ s, idx e1 = idx e2 → e1 = e2 := by
      intro e1 he1 e2 he2 h12
      rw [← hidx_get e1 he1, ← hidx_get e2 he2, h12]
    have hcardJ : (s.image (fun e => if idx e = E.length - 1 then 0
        else idx e + 1)).card = n - 1 := by
      rw [Finset.card_image_of_injOn, hcard]
      intro e1 he1 e2 he2 h12
      have he1s : e1 ∈ s := he1
      have he2s : e2 ∈ s := he2
      exact hidx_inj e1 he1s e2 he2s (unshift_inj (hidx e1 he1s) (hidx e2 he2s) h12)
    have hboundJ : ∀ y ∈ s.image (fun e => if idx e = E.length - 1 then 0
        else idx e + 1), y < E.length := by
      intro y hy
      obtain ⟨e, he, hye⟩ := Finset.mem_image.1 hy
      rw [← hye]
      exact unshift_lt (hidx e he)
    obtain ⟨r, hr, hrJ⟩ := unrank_surj (n - 1) E.length _ hcardJ hboundJ
    refine ⟨r, hr, ?_⟩
    rw [edgeSubsetOf_toFinset, hrJ, Finset.image_image]
    have heqon : Set.EqOn ((fun j => E.getD (if j = 0 then E.length - 1 else j - 1) (0, 0)) ∘
        (fun e => if idx e = E.length - 1 then 0 else idx e + 1))
        id (↑s : Set (Nat × Nat)) := by
      intro e he
      have hes : e ∈ s := he
      show E.getD
        (if (if idx e = E.length - 1 then 0 else idx e + 1) = 0
          then E.length - 1
          else (if idx e = E.length - 1 then 0 else idx e + 1) - 1)
        (0, 0) = e
      rw [shift_unshift (hidx e hes)]
      exact hidx_get e hes
    rw [Finset.image_congr heqon, Finset.image_id]
  · intro t
    rw [brute_force_eq_filter n E, List.mem_filter]
    simp only [List.mem_map, List.mem_range]
    constructor
    · rintro ⟨⟨r, hr, hrt⟩, hct⟩
      exact ⟨⟨r, hr, hrt.symm⟩, hct⟩
    · rintro ⟨⟨r, hr, hrt⟩, hct⟩
      exact ⟨⟨r, hr, hrt.symm⟩, hct⟩

theorem brute_force_trees_subsets_witness :
    (1 ≤ 3 ∧ triangleEdgeList.Nodup ∧ 3 - 1 ≤ triangleEdgeList.length) ∧
    ((∀ r, r < binom triangleEdgeList.length (3 - 1) →
      (edgeSubsetOf triangleEdgeList (3 - 1) r).length = 3 - 1 ∧
      (edgeSubsetOf triangleEdgeList (3 - 1) r).Nodup ∧
      ∀ e ∈ edgeSubsetOf triangleEdgeList (3 - 1) r, e ∈ triangleEdgeList) ∧
    (∀ r1 r2, r1 < binom triangleEdgeList.length (3 - 1) →
      r2 < binom triangleEdgeList.length (3 - 1) →
      (edgeSubsetOf triangleEdgeList (3 - 1) r1).toFinset =
        (edgeSubsetOf triangleEdgeList (3 - 1) r2).toFinset → r1 = r2) ∧
    (∀ s : Finset (Nat × Nat), s.card = 3 - 1 → s ⊆ triangleEdgeList.toFinset →
      ∃ r, r < binom triangleEdgeList.length (3 - 1) ∧
        (edgeSubsetOf triangleEdgeList (3 - 1) r).toFinset = s) ∧
    (∀ t, t ∈ brute_force_trees 3 triangleEdgeList ↔
      ((∃ r, r < binom triangleEdgeList.length (3 - 1) ∧
        t = edgeSubsetOf triangleEdgeList (3 - 1) r) ∧ checkTree t 3 = true))) :=
  ⟨⟨by decide, by decide, by decide⟩,
    brute_force_trees_subsets 3 triangleEdgeList (by decide) (by decide) (by decide)⟩
